import Mathlib

/-! # Arithmetic coder and Hamming encoder of `main.cpp`

A shallow embedding of `src/main.cpp`.

* Every value of `high_precision` (`cpp_dec_float_100`) is a rational number, a `ℚ`.
  The arithmetic of `high_precision` and the `double` computation of `main` belong to
  libraries outside the repository. The definitions with the suffix `In` are the
  functions of the program over a parameter `N : Numerics` that holds these library
  operations; `cppDecFloat100` is the instance for the decimal arithmetic of the
  library (16 limbs of 8 digits, cut off) and `exactNumerics` the instance for exact
  arithmetic. The definitions without the suffix (`calculateProbabilities`,
  `buildIntervals`, `encode`, `decode`, `quantize`) are the same functions written
  directly in exact arithmetic.
* `std::string` is a `List Char`; `std::map<char, V>` is an association list
  `List (Char × V)` kept in strictly ascending key order, which is the order a
  range-`for` over the map visits its entries (keys are compared as `Char`s, the
  order of `char` on ASCII text).  `upsert` is the map's `operator[]` followed by
  a write, `List.lookup` is `at`.
* A thrown `std::out_of_range` (from `intervals.at(ch)`) is `none`.
* `int`, `long long` and `cpp_int` values are `Nat`/`Int`, taken without overflow;
  the console output is not modelled.
-/

namespace DiscreteMath

/-! ## Data model -/

/-- The `struct Interval` of the source: a pair `low`, `high`. -/
structure Interval where
  low : ℚ
  high : ℚ
deriving DecidableEq

/-- Write to `m[k]` in an ordered map: `f none` is stored when `k` is absent
(the entry is created in key order), `f (some v)` replaces the value `v`. -/
def upsert {β : Type} (k : Char) (f : Option β → β) : List (Char × β) → List (Char × β)
  | [] => [(k, f none)]
  | (k1, v1) :: rest =>
    if k < k1 then (k, f none) :: (k1, v1) :: rest
    else if k = k1 then (k1, f (some v1)) :: rest
    else (k1, v1) :: upsert k f rest

/-- Keys strictly ascending: the iteration order of a `std::map`. -/
def KeysSorted {β : Type} (m : List (Char × β)) : Prop :=
  (m.map Prod.fst).Pairwise (· < ·)

/-! ## Arithmetic coder -/

/-- The first loop of `calculateProbabilities`: `probabilities[ch]++` for every
character, a fresh entry starting at `0`. -/
def countSymbols (input : List Char) : List (Char × ℚ) :=
  input.foldl (fun probabilities ch => upsert ch (fun o => o.getD 0 + 1) probabilities) []

/-- The function `calculateProbabilities` in exact arithmetic: after the counting loop,
the second loop divides every value by `input.size()`. -/
def calculateProbabilities (input : List Char) : List (Char × ℚ) :=
  (countSymbols input).map (fun pair => (pair.1, pair.2 / (input.length : ℚ)))

/-- The function `buildIntervals` in exact arithmetic: the state is the map `intervals`
and the running `low`. -/
def buildIntervals (probabilities : List (Char × ℚ)) : List (Char × Interval) :=
  (probabilities.foldl
    (fun (st : List (Char × Interval) × ℚ) pair =>
      (upsert pair.1 (fun _ => ⟨st.2, st.2 + pair.2⟩) st.1, st.2 + pair.2))
    ([], 0)).1

/-- Closed form of `buildIntervals` on a key-sorted table: the entries in table
order, each starting where the previous one ends (used in the proofs). -/
def intervalsFrom (low : ℚ) : List (Char × ℚ) → List (Char × Interval)
  | [] => []
  | (k, p) :: rest => (k, ⟨low, low + p⟩) :: intervalsFrom (low + p) rest

/-- The entries, in list order, are contiguous from `a` to `b`: the first `low`
is `a`, every `low` is the previous `high`, every `low < high`, the last `high` is `b`. -/
def Contiguous : ℚ → List (Char × Interval) → ℚ → Prop
  | a, [], b => a = b
  | a, (_, iv) :: rest, b => iv.low = a ∧ iv.low < iv.high ∧ Contiguous iv.high rest b

/-- The loop of `encode` in exact arithmetic, from the running `low` and `high`; `none`
when `intervals.at(ch)` throws. -/
def encodeLoop (intervals : List (Char × Interval)) (low high : ℚ) : List Char → Option (ℚ × ℚ)
  | [] => some (low, high)
  | ch :: rest =>
    match intervals.lookup ch with
    | none => none
    | some iv =>
      let range := high - low
      let new_high := low + range * iv.high
      let new_low := low + range * iv.low
      encodeLoop intervals new_low new_high rest

/-- The function `encode` in exact arithmetic: starts from `low = 0`, `high = 1`. -/
def encode (input : List Char) (intervals : List (Char × Interval)) : Option (ℚ × ℚ) :=
  encodeLoop intervals 0 1 input

/-- The constant `EPSILON = 1e-50`. -/
def EPSILON : ℚ := 1 / 10 ^ 50

/-- The function `isGreaterOrEqual`. -/
def isGreaterOrEqual (a b : ℚ) : Bool :=
  decide (a > b) || decide (|a - b| < EPSILON)

/-- The function `isLess`. -/
def isLess (a b : ℚ) : Bool :=
  decide (a < b) && decide (|a - b| ≥ EPSILON)

/-- The inner loop of `decode`: the first entry, in map order, that passes the
match test gives the symbol and the renormalised, clamped `value`; `none` is
`found == false`. -/
def decodeScan (value : ℚ) : List (Char × Interval) → Option (Char × ℚ)
  | [] => none
  | (c, iv) :: rest =>
    if isGreaterOrEqual value iv.low && isLess value iv.high then
      let value1 := (value - iv.low) / (iv.high - iv.low)
      let value2 := if isGreaterOrEqual value1 1 then 1 - EPSILON else value1
      let value3 := if value2 < 0 then 0 else value2
      some (c, value3)
    else decodeScan value rest

/-- The outer loop of `decode` with `steps` iterations left; it stops at the
first step in which no entry matches. -/
def decodeLoop (intervals : List (Char × Interval)) : Nat → ℚ → List Char
  | 0, _ => []
  | steps + 1, value =>
    match decodeScan value intervals with
    | none => []
    | some (c, value1) => c :: decodeLoop intervals steps value1

/-- The function `decode`; a `messageLength` below `1` runs no iteration. -/
def decode (encodedValue : ℚ) (messageLength : Int) (intervals : List (Char × Interval)) :
    List Char :=
  decodeLoop intervals messageLength.toNat encodedValue

/-- A 332-character input over `A`, `B` (166 of each): after the leading `A` the
code point lies less than `EPSILON` below the top `1/2` of the interval of `A`. -/
def tieInput : List Char :=
  'A' :: (List.replicate 166 'B' ++ List.replicate 165 'A')

/-! ## Quantizer of `main` -/

/-- Search for the least `q` from `q` upwards with `2^(-q) ≤ range`. -/
def ceilNegLog2Loop (range : ℚ) : Nat → Nat → Nat
  | 0, q => q
  | fuel + 1, q => if (1 / 2 : ℚ) ^ q ≤ range then q else ceilNegLog2Loop range fuel (q + 1)

/-- The value `ceil(-log2(range))` of `main`, the logarithm taken exactly: the
least `q ≥ 0` with `2^(-q) ≤ range` (for `0 < range ≤ 1`, which is all `encode`
returns on a partition of `[0, 1)`). The denominator of `range` is enough fuel. -/
def ceilNegLog2 (range : ℚ) : Nat :=
  ceilNegLog2Loop range range.den 0

/-- The conversion `convert_to<big_int>()`: truncation towards zero. -/
def toBigInt (x : ℚ) : Int :=
  Int.tdiv x.num x.den

/-- The lines of `main` that compute `q`, `midpoint` and `p` from the interval
returned by `encode`, in exact arithmetic and with the exact logarithm; the result is
`(p, q)`. -/
def quantize (low high : ℚ) : Int × Nat :=
  let range := high - low
  let q := ceilNegLog2 range
  let midpoint := (low + high) / 2
  let p := toBigInt (midpoint * 2 ^ q)
  (p, q)

/-! ## Rendering of the codeword -/

/-- The numeric operations the program takes from its libraries; every value of
`high_precision` is a rational number. -/
structure Numerics where
  /-- The sum `a + b` of two `high_precision` values. -/
  add : ℚ → ℚ → ℚ
  /-- The difference `a - b` of two `high_precision` values. -/
  sub : ℚ → ℚ → ℚ
  /-- The product `a * b` of two `high_precision` values. -/
  mul : ℚ → ℚ → ℚ
  /-- The quotient `a / n` of a `high_precision` value by an integer (`input.size()`, `2`). -/
  div : ℚ → ℚ → ℚ
  /-- The value `static_cast<long long>(ceil(-log2(range.convert_to<double>())))`;
  `none` where the cast is undefined. -/
  ceilNegLog2 : ℚ → Option Int
  /-- The value `pow(2, q)`, a `double`, as it enters the product with `midpoint`. -/
  pow2 : Int → ℚ

/-- The libraries taken as exact: the arithmetic of `ℚ`, the exact ceiling of the
logarithm (undefined for `range ≤ 0`, where `log2` has no finite value). -/
def exactNumerics : Numerics where
  add := fun a b => a + b
  sub := fun a b => a - b
  mul := fun a b => a * b
  div := fun a b => a / b
  ceilNegLog2 := fun range => if 0 < range then some (ceilNegLog2 range : Int) else none
  pow2 := fun q => (2 : ℚ) ^ q

/-- The function `calculateProbabilities` over the arithmetic `N`: the counts are small
integers, held exactly; the quotient by `input.size()` is the one of `N`. -/
def calculateProbabilitiesIn (N : Numerics) (input : List Char) : List (Char × ℚ) :=
  (countSymbols input).map (fun pair => (pair.1, N.div pair.2 (input.length : ℚ)))

/-- The function `buildIntervals` over the arithmetic `N`. -/
def buildIntervalsIn (N : Numerics) (probabilities : List (Char × ℚ)) :
    List (Char × Interval) :=
  (probabilities.foldl
    (fun (st : List (Char × Interval) × ℚ) pair =>
      (upsert pair.1 (fun _ => ⟨st.2, N.add st.2 pair.2⟩) st.1, N.add st.2 pair.2))
    ([], 0)).1

/-- Closed form of `buildIntervalsIn` on a key-sorted table (used in the proofs). -/
def intervalsFromIn (N : Numerics) (low : ℚ) : List (Char × ℚ) → List (Char × Interval)
  | [] => []
  | (k, p) :: rest => (k, ⟨low, N.add low p⟩) :: intervalsFromIn N (N.add low p) rest

/-- The loop of `encode` over the arithmetic `N`. -/
def encodeLoopIn (N : Numerics) (intervals : List (Char × Interval)) (low high : ℚ) :
    List Char → Option (ℚ × ℚ)
  | [] => some (low, high)
  | ch :: rest =>
    match intervals.lookup ch with
    | none => none
    | some iv =>
      let range := N.sub high low
      let new_high := N.add low (N.mul range iv.high)
      let new_low := N.add low (N.mul range iv.low)
      encodeLoopIn N intervals new_low new_high rest

/-- The function `encode` over the arithmetic `N`. -/
def encodeIn (N : Numerics) (input : List Char) (intervals : List (Char × Interval)) :
    Option (ℚ × ℚ) :=
  encodeLoopIn N intervals 0 1 input

/-- The quantizer lines of `main` over the libraries `N`: `range`, `q`, `midpoint` and
`p`, in this order; `none` when the cast that gives `q` is undefined. -/
def quantizeIn (N : Numerics) (low high : ℚ) : Option (Int × Int) :=
  let range := N.sub high low
  match N.ceilNegLog2 range with
  | none => none
  | some q =>
    let midpoint := N.div (N.add low high) 2
    let p := toBigInt (N.mul midpoint (N.pow2 q))
    some (p, q)

/-- The base of a limb, `10^8`. -/
def limbBase : ℚ := 10 ^ 8

/-- For `x ≥ 1`: the least `e ≥ 0` from `e` upwards with `x < limbBase^(e+1)`. -/
def limbExpUp (x : ℚ) : Nat → Nat → Nat
  | 0, e => e
  | fuel + 1, e => if x < limbBase ^ (e + 1) then e else limbExpUp x fuel (e + 1)

/-- For `0 < x < 1`: the least `j ≥ 1` from `j` upwards with `1 ≤ x * limbBase^j`. -/
def limbExpDown (x : ℚ) : Nat → Nat → Nat
  | 0, j => j
  | fuel + 1, j => if 1 ≤ x * limbBase ^ j then j else limbExpDown x fuel (j + 1)

/-- The weight of the last of the 16 limbs of `x > 0`. -/
def lastLimbUnit (x : ℚ) : ℚ :=
  if 1 ≤ x then limbBase ^ (limbExpUp x x.num.toNat 0) / limbBase ^ 15
  else 1 / limbBase ^ (limbExpDown x x.den 1 + 15)

/-- The value `x ≥ 0` cut off below the weight `u`. -/
def truncTo (u x : ℚ) : ℚ :=
  ((x / u).floor : ℚ) * u

/-- The value `x` cut off to 16 limbs (towards zero). -/
def truncLimbs (x : ℚ) : ℚ :=
  if x = 0 then 0
  else if 0 < x then truncTo (lastLimbUnit x) x
  else -truncTo (lastLimbUnit (-x)) (-x)

/-- Subtraction in `cpp_dec_float`: the operand of smaller magnitude is first aligned to
the limbs of the larger one, losing what falls below its last limb; the difference of
the aligned operands is exact. -/
def decSub (x y : ℚ) : ℚ :=
  if 0 ≤ y ∧ y ≤ x then (if x = 0 then 0 else x - truncTo (lastLimbUnit x) y)
  else if 0 ≤ x ∧ x < y then -(y - (if x = 0 then 0 else truncTo (lastLimbUnit y) x))
  else truncLimbs (x - y)

/-- The least positive normal `double`, `2^-1022`: `convert_to<double>()` gives `0.0`
below it. -/
def doubleMin : ℚ := 1 / 2 ^ 1022

/-- The `double` computation of `q`: below `doubleMin` the converted range is `0.0`,
`log2` gives `-inf` and the cast of `+inf` is undefined; from `doubleMin` on, the
ceiling of the logarithm, taken exactly (in `double` the value can be one less for a
`range` within the rounding error below a power of two; the ranges evaluated below,
`27/256` and `0`, are not of this kind). -/
def ceilNegLog2Double (range : ℚ) : Option Int :=
  if range < doubleMin then none
  else if range ≤ 1 then some (ceilNegLog2 range : Int)
  else some (-(Nat.log2 range.floor.toNat : Int))

/-- The libraries as the program uses them: sums, products and quotients by small
integers are the exact results cut off to 16 limbs, differences are computed by
`decSub`, `q` comes from the `double` computation, and `pow(2, q)` is `2^q` (`0.0` below
the least `double`). -/
def cppDecFloat100 : Numerics where
  add := fun a b => truncLimbs (a + b)
  sub := decSub
  mul := fun a b => truncLimbs (a * b)
  div := fun a b => truncLimbs (a / b)
  ceilNegLog2 := ceilNegLog2Double
  pow2 := fun q => if q < -1074 then 0 else truncLimbs ((2 : ℚ) ^ q)

/-- The `while` loop of `addHammingCode` from the current `r`. -/
def parityCountLoop (m : Nat) : Nat → Nat → Nat
  | 0, r => r
  | fuel + 1, r => if 1 <<< r < m + r + 1 then parityCountLoop m fuel (r + 1) else r

/-- The `r` chosen by `addHammingCode` for `m` data bits; `m + 2` iterations are enough
for the loop to leave through its condition. -/
def parityCount (m : Nat) : Nat :=
  parityCountLoop m (m + 2) 0

/-- The first `for` loop of `addHammingCode`: the state is `hammingCode` and `dataIndex`,
the positions `i` run over `1..n`. -/
def placeData (data : List Char) (n : Nat) : List Char × Nat :=
  (List.range' 1 n).foldl
    (fun (st : List Char × Nat) i =>
      if i &&& (i - 1) ≠ 0 then
        if st.2 < data.length then (st.1.set (i - 1) (data.getD st.2 '0'), st.2 + 1) else st
      else st)
    (List.replicate n '0', 0)

/-- Closed form of the placement loop from position `i` with `k` positions left: the
characters stored at the positions `i, i+1, ..` (used in the proofs). -/
def layoutFrom (i : Nat) : Nat → List Char → List Char
  | 0, _ => []
  | k + 1, data =>
    if i &&& (i - 1) ≠ 0 then
      match data with
      | d :: ds => d :: layoutFrom (i + 1) k ds
      | [] => '0' :: layoutFrom (i + 1) k []
    else '0' :: layoutFrom (i + 1) k data

/-- The value `hammingCode[j-1] - '0'` of a digit character. -/
def bitValue (c : Char) : Nat :=
  c.toNat - '0'.toNat

/-- XOR of a list of bit values. -/
def xorSum (l : List Nat) : Nat :=
  l.foldr (· ^^^ ·) 0

/-- The parity equation of check group `i` on a word `w`: the XOR of the bits of `w` at
the 1-indexed positions `j ≤ length w` with `j & 2^i ≠ 0`. -/
def checkGroup (w : List Char) (i : Nat) : Nat :=
  xorSum (((List.range' 1 w.length).filter (fun j => j &&& 2 ^ i ≠ 0)).map
    (fun j => bitValue (w.getD (j - 1) '0')))

/-- The other bit character: a single-bit error turns `c` into `flipBit c`. -/
def flipBit (c : Char) : Char :=
  if c = '0' then '1' else '0'

/-- The 1-indexed positions at which two words differ. -/
def differingPositions (a b : List Char) : List Nat :=
  (List.range' 1 a.length).filter (fun j => a.getD (j - 1) '0' ≠ b.getD (j - 1) '0')

/-- The inner `for` loop of the parity pass: `j` runs over `pos..n`. -/
def groupParity (hammingCode : List Char) (pos n : Nat) : Nat :=
  (List.range' pos (n + 1 - pos)).foldl
    (fun parity j =>
      if j &&& pos ≠ 0 then parity ^^^ bitValue (hammingCode.getD (j - 1) '0') else parity)
    0

/-- The parity pass of `addHammingCode`: `i` runs over `0..r-1`, each step stores
`parity + '0'` at index `pos - 1`. -/
def fillParity (n r : Nat) (hammingCode : List Char) : List Char :=
  (List.range r).foldl
    (fun code i =>
      let pos := 1 <<< i
      code.set (pos - 1) (Char.ofNat (groupParity code pos n + '0'.toNat)))
    hammingCode

/-- The function `addHammingCode`. -/
def addHammingCode (data : List Char) : List Char :=
  let m := data.length
  let r := parityCount m
  let n := m + r
  fillParity n r (placeData data n).1

/-! ## Ordered-map lemmas -/

theorem upsert_keys_mem {β : Type} (k : Char) (f : Option β → β) (m : List (Char × β)) (c : Char) :
    c ∈ (upsert k f m).map Prod.fst ↔ c = k ∨ c ∈ m.map Prod.fst := by
  induction m with
  | nil => simp [upsert]
  | cons e rest ih =>
    obtain ⟨k1, v1⟩ := e
    unfold upsert
    by_cases h1 : k < k1
    · simp [h1]
    · by_cases h2 : k = k1
      · subst h2; simp
      · simp only [h1, h2, if_false, List.map_cons, List.mem_cons, ih]
        tauto

theorem upsert_sorted {β : Type} (k : Char) (f : Option β → β) (m : List (Char × β))
    (hm : KeysSorted m) : KeysSorted (upsert k f m) := by
  induction m with
  | nil => simp [upsert, KeysSorted]
  | cons e rest ih =>
    obtain ⟨k1, v1⟩ := e
    unfold KeysSorted at hm ih ⊢
    simp only [List.map_cons, List.pairwise_cons] at hm
    unfold upsert
    by_cases h1 : k < k1
    · simp only [h1, if_true, List.map_cons, List.pairwise_cons, List.mem_cons]
      refine ⟨?_, hm⟩
      rintro a (rfl | ha)
      · exact h1
      · exact lt_trans h1 (hm.1 a ha)
    · by_cases h2 : k = k1
      · subst h2
        simp only [lt_self_iff_false, if_false, if_true, List.map_cons, List.pairwise_cons]
        exact hm
      · simp only [h1, h2, if_false, List.map_cons, List.pairwise_cons]
        refine ⟨?_, ih hm.2⟩
        intro a ha
        rcases (upsert_keys_mem k f rest a).1 ha with rfl | ha
        · exact lt_of_le_of_ne (not_lt.1 h1) (Ne.symm h2)
        · exact hm.1 a ha

theorem lookup_eq_none_of_lt {β : Type} (k : Char) (m : List (Char × β))
    (h : ∀ a ∈ m.map Prod.fst, k < a) : m.lookup k = none := by
  induction m with
  | nil => rfl
  | cons e rest ih =>
    obtain ⟨k1, v1⟩ := e
    simp only [List.map_cons, List.mem_cons, forall_eq_or_imp] at h
    have hne : (k == k1) = false := by simpa using ne_of_lt h.1
    simp only [List.lookup, hne]
    exact ih h.2

theorem upsert_lookup_self {β : Type} (k : Char) (f : Option β → β) (m : List (Char × β))
    (hm : KeysSorted m) : (upsert k f m).lookup k = some (f (m.lookup k)) := by
  induction m with
  | nil => simp [upsert, List.lookup]
  | cons e rest ih =>
    obtain ⟨k1, v1⟩ := e
    unfold KeysSorted at hm ih
    simp only [List.map_cons, List.pairwise_cons] at hm
    unfold upsert
    by_cases h1 : k < k1
    · have hne : (k == k1) = false := by simpa using ne_of_lt h1
      have hnone : rest.lookup k = none :=
        lookup_eq_none_of_lt k rest (fun a ha => lt_trans h1 (hm.1 a ha))
      simp [h1, List.lookup, hne, hnone]
    · by_cases h2 : k = k1
      · subst h2; simp [List.lookup]
      · have hne : (k == k1) = false := by simpa using h2
        simp only [h1, h2, if_false, List.lookup, hne]
        exact ih hm.2

theorem upsert_lookup_other {β : Type} (k : Char) (f : Option β → β) (m : List (Char × β))
    (c : Char) (hc : c ≠ k) : (upsert k f m).lookup c = m.lookup c := by
  induction m with
  | nil =>
    have hne : (c == k) = false := by simpa using hc
    simp [upsert, List.lookup, hne]
  | cons e rest ih =>
    obtain ⟨k1, v1⟩ := e
    unfold upsert
    by_cases h1 : k < k1
    · have hne : (c == k) = false := by simpa using hc
      simp [h1, List.lookup, hne]
    · by_cases h2 : k = k1
      · subst h2
        have hne : (c == k) = false := by simpa using hc
        simp [List.lookup, hne]
      · simp only [h1, h2, if_false, List.lookup]
        cases hck : (c == k1) <;> simp [ih]

theorem upsert_sum (k : Char) (m : List (Char × ℚ)) :
    ((upsert k (fun o => o.getD 0 + 1) m).map Prod.snd).sum = (m.map Prod.snd).sum + 1 := by
  induction m with
  | nil => simp [upsert]
  | cons e rest ih =>
    obtain ⟨k1, v1⟩ := e
    unfold upsert
    by_cases h1 : k < k1
    · simp [h1]; ring
    · by_cases h2 : k = k1
      · subst h2; simp; ring
      · simp only [h1, h2, if_false, List.map_cons, List.sum_cons, ih]; ring

/-- In a key-sorted list, membership of a pair is a successful lookup. -/
theorem mem_iff_lookup {β : Type} (m : List (Char × β)) (hm : KeysSorted m) (c : Char) (v : β) :
    (c, v) ∈ m ↔ m.lookup c = some v := by
  induction m with
  | nil => simp [List.lookup]
  | cons e rest ih =>
    obtain ⟨k1, v1⟩ := e
    unfold KeysSorted at hm ih
    simp only [List.map_cons, List.pairwise_cons] at hm
    by_cases hck : c = k1
    · subst hck
      have hnot : ∀ w, (c, w) ∉ rest := by
        intro w hw
        exact lt_irrefl c (hm.1 c (List.mem_map.2 ⟨(c, w), hw, rfl⟩))
      simp [List.lookup, hnot, eq_comm]
    · have hne : (c == k1) = false := by simpa using hck
      simp only [List.mem_cons, Prod.mk.injEq, hck, false_and, false_or, List.lookup, hne]
      exact ih hm.2

theorem lookup_isSome_iff {β : Type} (m : List (Char × β)) (c : Char) :
    (∃ v, m.lookup c = some v) ↔ c ∈ m.map Prod.fst := by
  induction m with
  | nil => simp [List.lookup]
  | cons e rest ih =>
    obtain ⟨k1, v1⟩ := e
    by_cases hck : c = k1
    · subst hck; simp [List.lookup]
    · have hne : (c == k1) = false := by simpa using hck
      simp only [List.lookup, hne, List.map_cons, List.mem_cons, hck, false_or]
      exact ih

/-! ## The probability table -/

/-- The state of the first loop of `calculateProbabilities` after `input`. -/
theorem counts_spec (input : List Char) :
    KeysSorted (countSymbols input) ∧
    (∀ c, (countSymbols input).lookup c =
      if c ∈ input then some (input.count c : ℚ) else none) ∧
    ((countSymbols input).map Prod.snd).sum =
      (input.length : ℚ) := by
  unfold countSymbols
  induction input using List.reverseRecOn with
  | nil => simp [KeysSorted, List.lookup]
  | append_singleton xs x ih =>
    obtain ⟨hs, hl, hsum⟩ := ih
    simp only [List.foldl_append, List.foldl_cons, List.foldl_nil]
    refine ⟨upsert_sorted _ _ _ hs, ?_, ?_⟩
    · intro c
      by_cases hcx : c = x
      · subst hcx
        rw [upsert_lookup_self _ _ _ hs, hl c]
        by_cases hmem : c ∈ xs
        · simp [hmem, List.count_append]
        · simp [hmem, List.count_append, List.count_eq_zero_of_not_mem hmem]
      · rw [upsert_lookup_other _ _ _ c hcx, hl c]
        have hxc : ¬ x = c := fun h => hcx h.symm
        simp [hcx, List.count_append, hxc]
    · rw [upsert_sum, hsum]; simp

theorem keysSorted_map {β γ : Type} (g : Char × β → γ) (m : List (Char × β))
    (hm : KeysSorted m) : KeysSorted (m.map (fun pair => (pair.1, g pair))) := by
  unfold KeysSorted at hm ⊢
  simpa [List.map_map, Function.comp_def] using hm

theorem lookup_map {β γ : Type} (g : β → γ) (m : List (Char × β)) (c : Char) :
    (m.map (fun pair => (pair.1, g pair.2))).lookup c = (m.lookup c).map g := by
  induction m with
  | nil => simp [List.lookup]
  | cons e rest ih =>
    obtain ⟨k1, v1⟩ := e
    simp only [List.map_cons, List.lookup]
    cases (c == k1) <;> simp [ih]

theorem calculateProbabilities_sorted (input : List Char) :
    KeysSorted (calculateProbabilities input) :=
  keysSorted_map (fun pair => pair.2 / (input.length : ℚ)) _ (counts_spec input).1

theorem calculateProbabilities_lookup (input : List Char) (c : Char) :
    (calculateProbabilities input).lookup c =
      if c ∈ input then some ((input.count c : ℚ) / (input.length : ℚ)) else none := by
  unfold calculateProbabilities
  rw [lookup_map (fun v => v / (input.length : ℚ)), (counts_spec input).2.1 c]
  by_cases h : c ∈ input <;> simp [h]

theorem calculateProbabilities_sum (input : List Char) (h : input ≠ []) :
    ((calculateProbabilities input).map Prod.snd).sum = 1 := by
  unfold calculateProbabilities
  have hlen : (input.length : ℚ) ≠ 0 := by
    simpa using h
  rw [List.map_map]
  have : (Prod.snd ∘ fun (pair : Char × ℚ) => (pair.1, pair.2 / (input.length : ℚ)))
      = fun pair => pair.2 * (input.length : ℚ)⁻¹ := by
    funext pair; simp [div_eq_mul_inv]
  rw [this, List.sum_map_mul_right, (counts_spec input).2.2]
  exact mul_inv_cancel₀ hlen

/-! ## The partition -/

theorem upsert_append_of_lt {β : Type} (k : Char) (f : Option β → β) (m : List (Char × β))
    (h : ∀ a ∈ m.map Prod.fst, a < k) : upsert k f m = m ++ [(k, f none)] := by
  induction m with
  | nil => rfl
  | cons e rest ih =>
    obtain ⟨k1, v1⟩ := e
    simp only [List.map_cons, List.mem_cons, forall_eq_or_imp] at h
    unfold upsert
    have h1 : ¬ k < k1 := not_lt.2 (le_of_lt h.1)
    have h2 : ¬ k = k1 := ne_of_gt h.1
    simp only [h1, h2, if_false, List.cons_append, ih h.2]

theorem buildIntervals_foldl (T : List (Char × ℚ)) :
    ∀ (acc : List (Char × Interval)) (low : ℚ), KeysSorted T →
      (∀ a ∈ acc.map Prod.fst, ∀ t ∈ T.map Prod.fst, a < t) →
      (T.foldl
        (fun (st : List (Char × Interval) × ℚ) pair =>
          (upsert pair.1 (fun _ => ⟨st.2, st.2 + pair.2⟩) st.1, st.2 + pair.2))
        (acc, low)).1 = acc ++ intervalsFrom low T := by
  induction T with
  | nil => intro acc low _ _; simp [intervalsFrom]
  | cons e rest ih =>
    intro acc low hs hlt
    obtain ⟨k, p⟩ := e
    unfold KeysSorted at hs
    simp only [List.map_cons, List.pairwise_cons] at hs
    simp only [List.foldl_cons]
    rw [upsert_append_of_lt k _ acc (fun a ha => hlt a ha k (by simp))]
    rw [ih _ _ hs.2]
    · simp [intervalsFrom]
    · intro a ha t ht
      simp only [List.map_append, List.map_cons, List.map_nil, List.mem_append,
        List.mem_singleton] at ha
      rcases ha with ha | rfl
      · exact hlt a ha t (by simp [ht])
      · exact hs.1 t ht

theorem buildIntervals_eq (T : List (Char × ℚ)) (hs : KeysSorted T) :
    buildIntervals T = intervalsFrom 0 T := by
  unfold buildIntervals
  rw [buildIntervals_foldl T [] 0 hs (by simp)]
  simp

theorem intervalsFrom_keys (T : List (Char × ℚ)) :
    ∀ low, (intervalsFrom low T).map Prod.fst = T.map Prod.fst := by
  induction T with
  | nil => intro low; rfl
  | cons e rest ih => intro low; obtain ⟨k, p⟩ := e; simp [intervalsFrom, ih]

theorem intervalsFrom_width (T : List (Char × ℚ)) :
    ∀ (low : ℚ) (i : Nat) (e : Char × Interval) (t : Char × ℚ),
      (intervalsFrom low T)[i]? = some e → T[i]? = some t →
      e.1 = t.1 ∧ e.2.high = e.2.low + t.2 := by
  induction T with
  | nil => intro low i e t he; simp [intervalsFrom] at he
  | cons x rest ih =>
    intro low i e t he ht
    obtain ⟨k, p⟩ := x
    cases i with
    | zero =>
      simp only [intervalsFrom, List.getElem?_cons_zero, Option.some.injEq] at he ht
      subst he; subst ht; simp
    | succ i =>
      simp only [intervalsFrom, List.getElem?_cons_succ] at he ht
      exact ih _ i e t he ht

theorem intervalsFrom_contiguous (T : List (Char × ℚ)) :
    ∀ low, (∀ t ∈ T, 0 < t.2) →
      Contiguous low (intervalsFrom low T) (low + (T.map Prod.snd).sum) := by
  induction T with
  | nil => intro low _; simp [intervalsFrom, Contiguous]
  | cons x rest ih =>
    intro low hpos
    obtain ⟨k, p⟩ := x
    simp only [intervalsFrom, Contiguous, List.map_cons, List.sum_cons]
    refine ⟨trivial, ?_, ?_⟩
    · have := hpos (k, p) (by simp)
      simp at this; linarith
    · have := ih (low + p) (fun t ht => hpos t (by simp [ht]))
      rw [add_assoc] at this
      exact this

/-! ### Consequences of contiguity -/

theorem Contiguous.le {P : List (Char × Interval)} : ∀ {a b : ℚ}, Contiguous a P b → a ≤ b := by
  induction P with
  | nil => intro a b h; exact le_of_eq h
  | cons e rest ih =>
    intro a b h
    obtain ⟨c, iv⟩ := e
    obtain ⟨h1, h2, h3⟩ := h
    have := ih h3
    linarith

theorem Contiguous.mem_bounds {P : List (Char × Interval)} :
    ∀ {a b : ℚ}, Contiguous a P b → ∀ e ∈ P, a ≤ e.2.low ∧ e.2.low < e.2.high ∧ e.2.high ≤ b := by
  induction P with
  | nil => intro a b _ e he; simp at he
  | cons x rest ih =>
    intro a b h e he
    obtain ⟨c, iv⟩ := x
    obtain ⟨h1, h2, h3⟩ := h
    rcases List.mem_cons.1 he with rfl | he
    · exact ⟨le_of_eq h1.symm, h2, h3.le⟩
    · obtain ⟨g1, g2, g3⟩ := ih h3 e he
      exact ⟨by linarith, g2, g3⟩

theorem Contiguous.head_low {P : List (Char × Interval)} {a b : ℚ} (h : Contiguous a P b)
    (e : Char × Interval) (he : P.head? = some e) : e.2.low = a := by
  cases P with
  | nil => simp at he
  | cons x rest =>
    obtain ⟨c, iv⟩ := x
    simp only [List.head?_cons, Option.some.injEq] at he
    subst he
    exact h.1

theorem Contiguous.last_high {P : List (Char × Interval)} :
    ∀ {a b : ℚ}, Contiguous a P b → ∀ e, P.getLast? = some e → e.2.high = b := by
  induction P with
  | nil => intro a b _ e he; simp at he
  | cons x rest ih =>
    intro a b h e he
    obtain ⟨c, iv⟩ := x
    obtain ⟨h1, h2, h3⟩ := h
    cases rest with
    | nil =>
      simp only [List.getLast?_singleton, Option.some.injEq] at he
      subst he
      exact h3
    | cons y rest1 =>
      rw [List.getLast?_cons_cons] at he
      exact ih h3 e he

theorem Contiguous.next_low {P : List (Char × Interval)} :
    ∀ {a b : ℚ}, Contiguous a P b → ∀ (i : Nat) (e e1 : Char × Interval),
      P[i]? = some e → P[i + 1]? = some e1 →
      e1.2.low = e.2.high := by
  induction P with
  | nil => intro a b _ i e e1 he; simp at he
  | cons x rest ih =>
    intro a b h i e e1 he he1
    obtain ⟨c, iv⟩ := x
    obtain ⟨h1, h2, h3⟩ := h
    cases i with
    | zero =>
      simp only [List.getElem?_cons_zero, Option.some.injEq] at he
      subst he
      simp only [zero_add, List.getElem?_cons_succ] at he1
      cases rest with
      | nil => simp at he1
      | cons y rest1 =>
        simp only [List.getElem?_cons_zero, Option.some.injEq] at he1
        subst he1
        obtain ⟨d, iv1⟩ := y
        exact h3.1
    | succ i =>
      simp only [List.getElem?_cons_succ] at he he1
      exact ih h3 i e e1 he he1

theorem Contiguous.ordered {P : List (Char × Interval)} :
    ∀ {a b : ℚ}, Contiguous a P b → ∀ (i j : Nat) (ei ej : Char × Interval), i < j →
      P[i]? = some ei → P[j]? = some ej →
      ei.2.high ≤ ej.2.low := by
  induction P with
  | nil => intro a b _ i j ei ej _ he; simp at he
  | cons x rest ih =>
    intro a b h i j ei ej hij hi hj
    obtain ⟨c, iv⟩ := x
    obtain ⟨h1, h2, h3⟩ := h
    cases j with
    | zero => omega
    | succ j =>
      simp only [List.getElem?_cons_succ] at hj
      cases i with
      | zero =>
        simp only [List.getElem?_cons_zero, Option.some.injEq] at hi
        subst hi
        exact (h3.mem_bounds ej (List.getElem?_mem hj)).1
      | succ i =>
        simp only [List.getElem?_cons_succ] at hi
        exact ih h3 i j ei ej (by omega) hi hj

theorem Contiguous.cover {P : List (Char × Interval)} :
    ∀ {a b : ℚ}, Contiguous a P b → ∀ x : ℚ,
      (a ≤ x ∧ x < b) ↔ ∃ e ∈ P, e.2.low ≤ x ∧ x < e.2.high := by
  induction P with
  | nil =>
    intro a b h x
    have hab : a = b := h
    simp only [List.not_mem_nil, false_and, exists_false, iff_false, not_and, not_lt]
    intro hx; linarith
  | cons y rest ih =>
    intro a b h x
    obtain ⟨c, iv⟩ := y
    obtain ⟨h1, h2, h3⟩ := h
    have hle := h3.le
    constructor
    · rintro ⟨hax, hxb⟩
      by_cases hx : x < iv.high
      · exact ⟨(c, iv), by simp, by simpa [h1] using hax, hx⟩
      · obtain ⟨e, he, g⟩ := ((ih h3) x).1 ⟨not_lt.1 hx, hxb⟩
        exact ⟨e, by simp [he], g⟩
    · rintro ⟨e, he, g1, g2⟩
      rcases List.mem_cons.1 he with rfl | he
      · simp only at g1 g2
        exact ⟨by linarith, by linarith⟩
      · obtain ⟨q1, q2⟩ := ((ih h3) x).2 ⟨e, he, g1, g2⟩
        exact ⟨by linarith, q2⟩

/-! ## The encoder -/

theorem encodeLoop_affine (P : List (Char × Interval)) (input : List Char) :
    ∀ low high : ℚ, encodeLoop P low high input =
      (encodeLoop P 0 1 input).map
        (fun ab => (low + (high - low) * ab.1, low + (high - low) * ab.2)) := by
  induction input with
  | nil => intro low high; simp [encodeLoop]
  | cons ch rest ih =>
    intro low high
    unfold encodeLoop
    cases hl : P.lookup ch with
    | none => simp
    | some iv =>
      simp only
      rw [ih (low + (high - low) * iv.low) (low + (high - low) * iv.high),
        ih (0 + (1 - 0) * iv.low) (0 + (1 - 0) * iv.high), Option.map_map]
      congr 1
      funext ab
      simp only [Function.comp_apply, Prod.mk.injEq]
      constructor <;> ring

theorem encode_cons (P : List (Char × Interval)) (ch : Char) (rest : List Char) (iv : Interval)
    (hl : P.lookup ch = some iv) :
    encode (ch :: rest) P = (encode rest P).map
      (fun ab => (iv.low + (iv.high - iv.low) * ab.1, iv.low + (iv.high - iv.low) * ab.2)) := by
  unfold encode
  conv_lhs => unfold encodeLoop
  simp only [hl]
  rw [encodeLoop_affine]
  congr 1
  funext ab
  simp

theorem encode_cons_none (P : List (Char × Interval)) (ch : Char) (rest : List Char)
    (hl : P.lookup ch = none) : encode (ch :: rest) P = none := by
  unfold encode
  unfold encodeLoop
  simp [hl]

theorem encode_interval (P : List (Char × Interval)) (input : List Char)
    (h : ∀ c ∈ input, ∃ iv, P.lookup c = some iv ∧ 0 ≤ iv.low ∧ iv.low < iv.high ∧ iv.high ≤ 1) :
    ∃ low high : ℚ, encode input P = some (low, high) ∧ 0 ≤ low ∧ low < high ∧ high ≤ 1 ∧
      high - low =
        (input.map (fun s => ((P.lookup s).map (fun iv => iv.high - iv.low)).getD 0)).prod := by
  induction input with
  | nil => exact ⟨0, 1, rfl, le_refl 0, one_pos, le_refl 1, by simp⟩
  | cons ch rest ih =>
    obtain ⟨iv, hl, h0, hlt, h1⟩ := h ch (by simp)
    obtain ⟨a, b, henc, ha, hab, hb, hw⟩ := ih (fun c hc => h c (by simp [hc]))
    have hwpos : 0 < iv.high - iv.low := by linarith
    refine ⟨iv.low + (iv.high - iv.low) * a, iv.low + (iv.high - iv.low) * b, ?_, ?_, ?_, ?_, ?_⟩
    · rw [encode_cons P ch rest iv hl, henc]; rfl
    · have := mul_nonneg hwpos.le ha; linarith
    · have := mul_lt_mul_of_pos_left hab hwpos; linarith
    · have := mul_le_mul_of_nonneg_left hb hwpos.le; linarith
    · simp only [List.map_cons, List.prod_cons, hl, Option.map_some', Option.getD_some]
      rw [← hw]; ring

/-! ## The decoder -/

theorem EPSILON_pos : 0 < EPSILON := by
  unfold EPSILON; positivity

theorem isGreaterOrEqual_iff (a b : ℚ) : isGreaterOrEqual a b = true ↔ b - EPSILON < a := by
  have hε := EPSILON_pos
  unfold isGreaterOrEqual
  simp only [Bool.or_eq_true, decide_eq_true_eq, abs_lt]
  constructor
  · rintro (h | ⟨h1, _⟩) <;> linarith
  · intro h
    by_cases hab : a > b
    · exact Or.inl hab
    · exact Or.inr ⟨by linarith, by linarith⟩

theorem isLess_iff (a b : ℚ) : isLess a b = true ↔ a ≤ b - EPSILON := by
  have hε := EPSILON_pos
  unfold isLess
  simp only [Bool.and_eq_true, decide_eq_true_eq, ge_iff_le]
  constructor
  · rintro ⟨h1, h2⟩
    rw [abs_of_neg (by linarith)] at h2
    linarith
  · intro h
    refine ⟨by linarith, ?_⟩
    rw [abs_of_neg (by linarith)]
    linarith

theorem decodeScan_hit (P : List (Char × Interval)) :
    ∀ (a b : ℚ), Contiguous a P b → ∀ (c : Char) (iv : Interval), (c, iv) ∈ P →
      ∀ v : ℚ, iv.low ≤ v → v ≤ iv.high - EPSILON →
        decodeScan v P = some (c,
          if (if isGreaterOrEqual ((v - iv.low) / (iv.high - iv.low)) 1 then 1 - EPSILON
              else (v - iv.low) / (iv.high - iv.low)) < 0 then 0
          else (if isGreaterOrEqual ((v - iv.low) / (iv.high - iv.low)) 1 then 1 - EPSILON
              else (v - iv.low) / (iv.high - iv.low))) := by
  have hε := EPSILON_pos
  induction P with
  | nil => intro a b _ c iv hmem; simp at hmem
  | cons x rest ih =>
    intro a b hP c iv hmem v hlo hhi
    obtain ⟨c1, iv1⟩ := x
    obtain ⟨h1, h2, h3⟩ := hP
    unfold decodeScan
    rcases List.mem_cons.1 hmem with heq | hmem
    · obtain ⟨rfl, rfl⟩ := Prod.mk.inj heq
      have hg : isGreaterOrEqual v iv.low = true := (isGreaterOrEqual_iff _ _).2 (by linarith)
      have hl : isLess v iv.high = true := (isLess_iff _ _).2 hhi
      simp only [hg, hl, Bool.and_self, if_true]
    · have hb := (h3.mem_bounds (c, iv) hmem).1
      have hl : isLess v iv1.high = false := by
        rw [Bool.eq_false_iff]
        intro h
        have := (isLess_iff _ _).1 h
        simp only at hb
        linarith
      simp only [hl, Bool.and_false, Bool.false_eq_true, if_false]
      exact ih _ _ h3 c iv hmem v hlo hhi

theorem decodeLoop_encode (P : List (Char × Interval)) (hP : Contiguous 0 P 1)
    (hk : KeysSorted P) :
    ∀ seq : List Char, (∀ c ∈ seq, c ∈ P.map Prod.fst) → ∀ low high : ℚ,
      encode seq P = some (low, high) → 2 * EPSILON ≤ high - low →
      decodeLoop P seq.length ((low + high) / 2) = seq := by
  have hε := EPSILON_pos
  have hentry : ∀ c, c ∈ P.map Prod.fst →
      ∃ iv, P.lookup c = some iv ∧ 0 ≤ iv.low ∧ iv.low < iv.high ∧ iv.high ≤ 1 := by
    intro c hc
    obtain ⟨iv, hl⟩ := (lookup_isSome_iff P c).2 hc
    have hmem := (mem_iff_lookup P hk c iv).2 hl
    exact ⟨iv, hl, hP.mem_bounds (c, iv) hmem⟩
  intro seq
  induction seq with
  | nil => intro _ low high _ _; rfl
  | cons ch rest ih =>
    intro hsym low high henc hw
    obtain ⟨iv, hl, h0, hlt, h1⟩ := hentry ch (hsym ch (by simp))
    have hmem := (mem_iff_lookup P hk ch iv).2 hl
    obtain ⟨a, b, hrest, ha, hab, hb, -⟩ :=
      encode_interval P rest (fun c hc => hentry c (hsym c (by simp [hc])))
    rw [encode_cons P ch rest iv hl, hrest] at henc
    simp only [Option.map_some', Option.some.injEq, Prod.mk.injEq] at henc
    obtain ⟨rfl, rfl⟩ := henc
    have hwpos : 0 < iv.high - iv.low := by linarith
    have hwle : iv.high - iv.low ≤ 1 := by linarith
    have hwidth : iv.low + (iv.high - iv.low) * b - (iv.low + (iv.high - iv.low) * a)
        = (iv.high - iv.low) * (b - a) := by ring
    rw [hwidth] at hw
    have hba : 2 * EPSILON ≤ b - a := by
      have : (iv.high - iv.low) * (b - a) ≤ 1 * (b - a) :=
        mul_le_mul_of_nonneg_right hwle (by linarith)
      linarith
    have hmid : (iv.low + (iv.high - iv.low) * a + (iv.low + (iv.high - iv.low) * b)) / 2
        = iv.low + (iv.high - iv.low) * ((a + b) / 2) := by ring
    rw [hmid]
    have hv1 : iv.low ≤ iv.low + (iv.high - iv.low) * ((a + b) / 2) := by
      have := mul_nonneg hwpos.le (show (0 : ℚ) ≤ (a + b) / 2 by linarith)
      linarith
    have hv2 : iv.low + (iv.high - iv.low) * ((a + b) / 2) ≤ iv.high - EPSILON := by
      have e1 : iv.high - (iv.low + (iv.high - iv.low) * ((a + b) / 2))
          = (iv.high - iv.low) * (b - a) / 2 + (iv.high - iv.low) * (1 - b) := by ring
      have := mul_nonneg hwpos.le (show (0 : ℚ) ≤ 1 - b by linarith)
      linarith
    have hscan := decodeScan_hit P 0 1 hP ch iv hmem _ hv1 hv2
    have hnorm : (iv.low + (iv.high - iv.low) * ((a + b) / 2) - iv.low) / (iv.high - iv.low)
        = (a + b) / 2 := by
      have hne := hwpos.ne'
      field_simp
      ring
    rw [hnorm] at hscan
    have hclamp : isGreaterOrEqual ((a + b) / 2) 1 = false := by
      rw [Bool.eq_false_iff]
      intro h
      have := (isGreaterOrEqual_iff _ _).1 h
      linarith
    have hnn : ¬ (a + b) / 2 < 0 := by linarith
    simp only [hclamp, Bool.false_eq_true, if_false, hnn] at hscan
    simp only [List.length_cons, decodeLoop, hscan]
    rw [ih (fun c hc => hsym c (by simp [hc])) a b hrest hba]

/-! ## The partition of an input -/

theorem calculateProbabilities_mem (input : List Char) (c : Char) (v : ℚ)
    (h : (c, v) ∈ calculateProbabilities input) :
    c ∈ input ∧ v = (input.count c : ℚ) / (input.length : ℚ) := by
  have hl := (mem_iff_lookup _ (calculateProbabilities_sorted input) c v).1 h
  rw [calculateProbabilities_lookup] at hl
  by_cases hc : c ∈ input
  · simp only [hc, if_true, Option.some.injEq] at hl
    exact ⟨hc, hl.symm⟩
  · simp [hc] at hl

theorem calculateProbabilities_pos (input : List Char) (c : Char) (v : ℚ)
    (h : (c, v) ∈ calculateProbabilities input) : 0 < v ∧ v ≤ 1 := by
  obtain ⟨hc, rfl⟩ := calculateProbabilities_mem input c v h
  have hcount : 0 < input.count c := List.count_pos_iff.2 hc
  have hlen : 0 < input.length := List.length_pos_of_mem hc
  have hle : input.count c ≤ input.length := List.count_le_length c input
  have h1 : (0 : ℚ) < (input.count c : ℚ) := by exact_mod_cast hcount
  have h2 : (0 : ℚ) < (input.length : ℚ) := by exact_mod_cast hlen
  have h3 : (input.count c : ℚ) ≤ (input.length : ℚ) := by exact_mod_cast hle
  exact ⟨div_pos h1 h2, (div_le_one h2).2 h3⟩

theorem calculateProbabilities_keys (input : List Char) (c : Char) :
    c ∈ (calculateProbabilities input).map Prod.fst ↔ c ∈ input := by
  rw [← lookup_isSome_iff, calculateProbabilities_lookup]
  by_cases hc : c ∈ input <;> simp [hc]

theorem ownPartition_eq (input : List Char) :
    buildIntervals (calculateProbabilities input) =
      intervalsFrom 0 (calculateProbabilities input) :=
  buildIntervals_eq _ (calculateProbabilities_sorted input)

theorem ownPartition_keys (input : List Char) :
    (buildIntervals (calculateProbabilities input)).map Prod.fst =
      (calculateProbabilities input).map Prod.fst := by
  rw [ownPartition_eq, intervalsFrom_keys]

theorem ownPartition_sorted (input : List Char) :
    KeysSorted (buildIntervals (calculateProbabilities input)) := by
  unfold KeysSorted
  rw [ownPartition_keys]
  exact calculateProbabilities_sorted input

theorem ownPartition_contiguous (input : List Char) (h : input ≠ []) :
    Contiguous 0 (buildIntervals (calculateProbabilities input)) 1 := by
  rw [ownPartition_eq]
  have := intervalsFrom_contiguous (calculateProbabilities input) 0
    (fun t ht => (calculateProbabilities_pos input t.1 t.2 ht).1)
  rwa [calculateProbabilities_sum input h, zero_add] at this

theorem ownPartition_entry (input : List Char) (h : input ≠ []) (c : Char) (hc : c ∈ input) :
    ∃ iv, (buildIntervals (calculateProbabilities input)).lookup c = some iv ∧
      0 ≤ iv.low ∧ iv.low < iv.high ∧ iv.high ≤ 1 := by
  have hkey : c ∈ (buildIntervals (calculateProbabilities input)).map Prod.fst := by
    rw [ownPartition_keys]; exact (calculateProbabilities_keys input c).2 hc
  obtain ⟨iv, hl⟩ := (lookup_isSome_iff _ c).2 hkey
  have hmem := (mem_iff_lookup _ (ownPartition_sorted input) c iv).2 hl
  exact ⟨iv, hl, (ownPartition_contiguous input h).mem_bounds (c, iv) hmem⟩

/-! ## Claims on the arithmetic coder -/

/-- C1 (as amended): for every non-empty `seq`, `encode` over the partition of `seq`
returns an interval, and when that interval is at least `2 * EPSILON` wide,
`decode` from its midpoint with the length of `seq` returns exactly `seq`. -/
theorem roundtrip_of_wide_interval (seq : List Char) (hne : seq ≠ []) :
    ∃ low high : ℚ,
      encode seq (buildIntervals (calculateProbabilities seq)) = some (low, high) ∧
      (2 * EPSILON ≤ high - low →
        decode ((low + high) / 2) (seq.length : Int)
          (buildIntervals (calculateProbabilities seq)) = seq) := by
  obtain ⟨low, high, henc, -⟩ :=
    encode_interval (buildIntervals (calculateProbabilities seq)) seq
      (fun c hc => ownPartition_entry seq hne c hc)
  refine ⟨low, high, henc, fun hw => ?_⟩
  unfold decode
  rw [Int.toNat_natCast]
  refine decodeLoop_encode _ (ownPartition_contiguous seq hne) (ownPartition_sorted seq) seq
    ?_ low high henc hw
  intro c hc
  rw [ownPartition_keys]
  exact (calculateProbabilities_keys seq c).2 hc

/-- C1, the scenario of the specification: `"AAAB"` is encoded to `[81/256, 27/64)` and
decoding the midpoint `189/512` with length 4 gives `"AAAB"` back. -/
theorem roundtrip_of_wide_interval_witness :
    encode ['A', 'A', 'A', 'B'] (buildIntervals (calculateProbabilities ['A', 'A', 'A', 'B']))
      = some (81 / 256, 27 / 64) ∧
    decode (189 / 512) 4 (buildIntervals (calculateProbabilities ['A', 'A', 'A', 'B']))
      = ['A', 'A', 'A', 'B'] := by
  have henc : encode ['A', 'A', 'A', 'B']
      (buildIntervals (calculateProbabilities ['A', 'A', 'A', 'B'])) = some (81 / 256, 27 / 64) := by
    decide!
  refine ⟨henc, ?_⟩
  obtain ⟨low, high, h1, h2⟩ := roundtrip_of_wide_interval ['A', 'A', 'A', 'B'] (by decide)
  rw [henc] at h1
  simp only [Option.some.injEq, Prod.mk.injEq] at h1
  obtain ⟨rfl, rfl⟩ := h1
  have hw : 2 * EPSILON ≤ (27 / 64 : ℚ) - 81 / 256 := by
    unfold EPSILON; norm_num
  have := h2 hw
  norm_num at this
  exact this

/-- C1 as stated fails: on the 332-character input `tieInput` the decoder, run on
the midpoint of the encoder's interval, does not return the input. -/
theorem roundtrip_counterexample :
    tieInput ≠ [] ∧
    ∃ low high : ℚ,
      encode tieInput (buildIntervals (calculateProbabilities tieInput)) = some (low, high) ∧
      decode ((low + high) / 2) (tieInput.length : Int)
        (buildIntervals (calculateProbabilities tieInput)) ≠ tieInput := by
  refine ⟨List.cons_ne_nil _ _, 1 / 2 - 1 / 2 ^ 167, 1 / 2 - 1 / 2 ^ 167 + 1 / 2 ^ 332, ?_, ?_⟩
  · decide!
  · decide!

/-- In exact arithmetic, for every non-empty input, the partition
`buildIntervals (calculateProbabilities input)` has the keys of the table in ascending
order, starts at `low = 0`, gives every entry `high = low + probability` with `low < high`,
starts every entry at the previous entry's `high`, ends at `high = 1`; its intervals
`[low, high)` are pairwise disjoint and their union is `[0, 1)`. -/
theorem ownPartition_coverage (input : List Char) (hne : input ≠ []) :
    (buildIntervals (calculateProbabilities input)).map Prod.fst
      = (calculateProbabilities input).map Prod.fst ∧
    ((buildIntervals (calculateProbabilities input)).map Prod.fst).Pairwise (· < ·) ∧
    (∃ e, (buildIntervals (calculateProbabilities input)).head? = some e ∧ e.2.low = 0) ∧
    (∀ (i : Nat) (e : Char × Interval) (t : Char × ℚ),
      (buildIntervals (calculateProbabilities input))[i]? = some e →
      (calculateProbabilities input)[i]? = some t →
      e.1 = t.1 ∧ e.2.high = e.2.low + t.2 ∧ e.2.low < e.2.high) ∧
    (∀ (i : Nat) (e e1 : Char × Interval),
      (buildIntervals (calculateProbabilities input))[i]? = some e →
      (buildIntervals (calculateProbabilities input))[i + 1]? = some e1 →
      e1.2.low = e.2.high) ∧
    (∃ e, (buildIntervals (calculateProbabilities input)).getLast? = some e ∧ e.2.high = 1) ∧
    (∀ (i j : Nat) (ei ej : Char × Interval), i ≠ j →
      (buildIntervals (calculateProbabilities input))[i]? = some ei →
      (buildIntervals (calculateProbabilities input))[j]? = some ej →
      ∀ x : ℚ, ¬ ((ei.2.low ≤ x ∧ x < ei.2.high) ∧ (ej.2.low ≤ x ∧ x < ej.2.high))) ∧
    (∀ x : ℚ, (0 ≤ x ∧ x < 1) ↔
      ∃ e ∈ buildIntervals (calculateProbabilities input), e.2.low ≤ x ∧ x < e.2.high) := by
  have hc := ownPartition_contiguous input hne
  have hnil : buildIntervals (calculateProbabilities input) ≠ [] := by
    intro h
    rw [h] at hc
    exact absurd hc (by simp [Contiguous])
  refine ⟨ownPartition_keys input, ownPartition_sorted input, ?_, ?_, hc.next_low, ?_, ?_,
    hc.cover⟩
  · cases hP : buildIntervals (calculateProbabilities input) with
    | nil => exact absurd hP hnil
    | cons e rest =>
      refine ⟨e, rfl, ?_⟩
      rw [hP] at hc
      exact hc.head_low e rfl
  · intro i e t he ht
    have hw := intervalsFrom_width (calculateProbabilities input) 0 i e t
      (by rw [← ownPartition_eq]; exact he) ht
    exact ⟨hw.1, hw.2, (hc.mem_bounds e (List.getElem?_mem he)).2.1⟩
  · obtain ⟨e, he⟩ := Option.ne_none_iff_exists'.1
      (fun h => hnil (List.getLast?_eq_none_iff.1 h))
    exact ⟨e, he, hc.last_high e he⟩
  · intro i j ei ej hij hi hj x hx
    obtain ⟨⟨h1, h2⟩, h3, h4⟩ := hx
    rcases Nat.lt_or_gt_of_ne hij with h | h
    · have := hc.ordered i j ei ej h hi hj; linarith
    · have := hc.ordered j i ej ei h hj hi; linarith

/-! ## The quantizer -/

/-- C2, at the failing input: for `"AAAB"` the encoder returns `[81/256, 27/64)`, the
quantizer of `main` computes `q = 4` and `p = 5`, and the dyadic point `5/16` lies
below `low = 81/256`. -/
theorem quantizer_point_below_low :
    encode ['A', 'A', 'A', 'B'] (buildIntervals (calculateProbabilities ['A', 'A', 'A', 'B']))
      = some (81 / 256, 27 / 64) ∧
    quantize (81 / 256) (27 / 64) = (5, 4) ∧
    (((quantize (81 / 256) (27 / 64)).1 : ℚ) / 2 ^ (quantize (81 / 256) (27 / 64)).2 < 81 / 256) := by
  have hq : quantize (81 / 256) (27 / 64) = (5, 4) := by decide!
  refine ⟨by decide!, hq, ?_⟩
  rw [hq]
  norm_num

theorem parityCountLoop_spec (m : Nat) :
    ∀ (fuel r : Nat), (∀ r1, r1 < r → 2 ^ r1 < m + r1 + 1) →
      (∃ r0, r0 ≤ r + fuel ∧ m + r0 + 1 ≤ 2 ^ r0) →
      m + parityCountLoop m fuel r + 1 ≤ 2 ^ parityCountLoop m fuel r ∧
      ∀ r1, r1 < parityCountLoop m fuel r → 2 ^ r1 < m + r1 + 1 := by
  intro fuel
  induction fuel with
  | zero =>
    intro r hbelow hex
    obtain ⟨r0, hr0, hle⟩ := hex
    have hr : r0 = r := by
      rcases Nat.lt_or_ge r0 r with h | h
      · have := hbelow r0 h; omega
      · omega
    subst hr
    exact ⟨hle, hbelow⟩
  | succ fuel ih =>
    intro r hbelow hex
    unfold parityCountLoop
    rw [Nat.one_shiftLeft]
    by_cases hr : 2 ^ r < m + r + 1
    · rw [if_pos hr]
      apply ih (r + 1)
      · intro r1 hr1
        rcases Nat.lt_succ_iff_lt_or_eq.1 hr1 with h | h
        · exact hbelow r1 h
        · subst h; exact hr
      · obtain ⟨r0, hr0, hle⟩ := hex
        exact ⟨r0, by omega, hle⟩
    · rw [if_neg hr]
      exact ⟨by omega, hbelow⟩

/-- The loop leaves through its condition: `r` is the least number with `2^r ≥ m + r + 1`. -/
theorem parityCount_spec (m : Nat) :
    m + parityCount m + 1 ≤ 2 ^ parityCount m ∧
    ∀ r1, r1 < parityCount m → 2 ^ r1 < m + r1 + 1 := by
  unfold parityCount
  refine parityCountLoop_spec m (m + 2) 0 (fun r1 h => absurd h (Nat.not_lt_zero r1))
    ⟨m + 1, by omega, ?_⟩
  have h := Nat.lt_two_pow m
  rw [pow_succ]
  omega

theorem parityCount_pos (m : Nat) (hm : 1 ≤ m) : 1 ≤ parityCount m := by
  have h := (parityCount_spec m).1
  rcases Nat.eq_zero_or_pos (parityCount m) with h0 | h0
  · rw [h0] at h; simp at h; omega
  · exact h0

/-- For `m ≥ 1` the last parity position lies inside the codeword: `2^(r-1) < m + r`. -/
theorem parityCount_top (m : Nat) (hm : 1 ≤ m) :
    2 ^ (parityCount m - 1) < m + parityCount m := by
  have hpos := parityCount_pos m hm
  have h := (parityCount_spec m).2 (parityCount m - 1) (by omega)
  omega

theorem two_pow_lt_length (m : Nat) (hm : 1 ≤ m) (i : Nat) (hi : i < parityCount m) :
    2 ^ i < m + parityCount m := by
  have h1 : 2 ^ i ≤ 2 ^ (parityCount m - 1) := Nat.pow_le_pow_right (by decide) (by omega)
  have h2 := parityCount_top m hm
  omega

/-! ## The Hamming encoder: lengths -/

theorem placeData_foldl_length (data : List Char) (l : List Nat) :
    ∀ st : List Char × Nat,
      (l.foldl
        (fun (st : List Char × Nat) i =>
          if i &&& (i - 1) ≠ 0 then
            if st.2 < data.length then (st.1.set (i - 1) (data.getD st.2 '0'), st.2 + 1) else st
          else st) st).1.length = st.1.length := by
  induction l with
  | nil => intro st; rfl
  | cons i rest ih =>
    intro st
    rw [List.foldl_cons, ih]
    split_ifs <;> simp

theorem placeData_length (data : List Char) (n : Nat) : (placeData data n).1.length = n := by
  unfold placeData
  rw [placeData_foldl_length]
  simp

theorem fillParity_length (n r : Nat) (code : List Char) :
    (fillParity n r code).length = code.length := by
  unfold fillParity
  induction r with
  | zero => simp
  | succ r ih => rw [List.range_succ, List.foldl_append]; simpa using ih

theorem addHammingCode_length (data : List Char) :
    (addHammingCode data).length = data.length + parityCount data.length := by
  unfold addHammingCode
  simp only [fillParity_length, placeData_length]

/-- C7: for `m ≥ 1` the `r` computed by the loop of `addHammingCode` satisfies
`2^r ≥ m + r + 1` and `2^(r-1) < m + (r-1) + 1` (with `r ≥ 1`), and every codeword of
`m` data characters has length `m + r`. -/
theorem hamming_length_law (m : Nat) (hm : 1 ≤ m) :
    m + parityCount m + 1 ≤ 2 ^ parityCount m ∧
    1 ≤ parityCount m ∧
    2 ^ (parityCount m - 1) < m + (parityCount m - 1) + 1 ∧
    ∀ data : List Char, data.length = m →
      (addHammingCode data).length = m + parityCount m := by
  refine ⟨(parityCount_spec m).1, parityCount_pos m hm, ?_, ?_⟩
  · exact (parityCount_spec m).2 (parityCount m - 1) (by have := parityCount_pos m hm; omega)
  · intro data hlen
    rw [addHammingCode_length, hlen]

/-- C7, the scenario of the specification: `m = 4` gives `r = 3`, and `"1011"` is
encoded to a codeword of length `7`. -/
theorem hamming_length_law_witness :
    parityCount 4 = 3 ∧ (addHammingCode ['1', '0', '1', '1']).length = 7 ∧
    4 + parityCount 4 + 1 ≤ 2 ^ parityCount 4 :=
  ⟨by decide, by decide, (hamming_length_law 4 (by decide)).1⟩

/-! ## The Hamming encoder: placement of the data bits -/

theorem placeData_foldl_eq (data : List Char) :
    ∀ (k s : Nat) (pre : List Char) (idx : Nat), pre.length + 1 = s → idx ≤ data.length →
      ((List.range' s k).foldl
        (fun (st : List Char × Nat) i =>
          if i &&& (i - 1) ≠ 0 then
            if st.2 < data.length then (st.1.set (i - 1) (data.getD st.2 '0'), st.2 + 1) else st
          else st) (pre ++ List.replicate k '0', idx)).1
        = pre ++ layoutFrom s k (data.drop idx) := by
  intro k
  induction k with
  | zero => intro s pre idx _ _; simp [layoutFrom]
  | succ k ih =>
    intro s pre idx hs hidx
    have hs1 : s - 1 = pre.length := by omega
    rw [List.range'_succ, List.foldl_cons, List.replicate_succ]
    unfold layoutFrom
    by_cases hnp : s &&& (s - 1) ≠ 0
    · rw [if_pos hnp, if_pos hnp]
      by_cases hlt : idx < data.length
      · rw [if_pos hlt]
        simp only
        have hset : (pre ++ '0' :: List.replicate k '0').set (s - 1) (data.getD idx '0')
            = (pre ++ [data.getD idx '0']) ++ List.replicate k '0' := by
          rw [hs1, List.set_append_right _ _ (le_refl _)]
          simp
        rw [hset, ih (s + 1) (pre ++ [data.getD idx '0']) (idx + 1) (by simp; omega) (by omega)]
        have hdrop : data.drop idx = data.getD idx '0' :: data.drop (idx + 1) := by
          rw [List.drop_eq_getElem_cons hlt]
          congr 1
          simp [List.getD_eq_getElem?_getD, List.getElem?_eq_getElem hlt]
        rw [hdrop]
        simp
      · rw [if_neg hlt]
        have hnil : data.drop idx = [] := List.drop_eq_nil_of_le (by omega)
        have hcat : pre ++ '0' :: List.replicate k '0' = (pre ++ ['0']) ++ List.replicate k '0' := by
          simp
        rw [hcat, ih (s + 1) (pre ++ ['0']) idx (by simp; omega) hidx, hnil]
        simp
    · rw [if_neg hnp, if_neg hnp]
      have hcat : pre ++ '0' :: List.replicate k '0' = (pre ++ ['0']) ++ List.replicate k '0' := by
        simp
      rw [hcat, ih (s + 1) (pre ++ ['0']) idx (by simp; omega) hidx]
      simp

theorem placeData_eq (data : List Char) (n : Nat) :
    (placeData data n).1 = layoutFrom 1 n data := by
  unfold placeData
  have := placeData_foldl_eq data n 1 [] 0 rfl (Nat.zero_le _)
  simpa using this

theorem layoutFrom_length : ∀ (k s : Nat) (data : List Char), (layoutFrom s k data).length = k := by
  intro k
  induction k with
  | zero => intro s data; rfl
  | succ k ih =>
    intro s data
    unfold layoutFrom
    split_ifs
    · cases data <;> simp [ih]
    · simp [ih]

theorem layoutFrom_mem : ∀ (k s : Nat) (data : List Char) (c : Char),
    c ∈ layoutFrom s k data → c = '0' ∨ c ∈ data := by
  intro k
  induction k with
  | zero => intro s data c h; simp [layoutFrom] at h
  | succ k ih =>
    intro s data c h
    unfold layoutFrom at h
    split_ifs at h
    · cases data with
      | nil =>
        simp only [List.mem_cons] at h
        rcases h with h | h
        · exact Or.inl h
        · exact ih _ _ c h
      | cons d ds =>
        simp only [List.mem_cons] at h ⊢
        rcases h with h | h
        · exact Or.inr (Or.inl h)
        · rcases ih _ _ c h with h | h
          · exact Or.inl h
          · exact Or.inr (Or.inr h)
    · simp only [List.mem_cons] at h
      rcases h with h | h
      · exact Or.inl h
      · exact ih _ _ c h

/-- A position that fails the test `i & (i-1) != 0` keeps the initial `'0'`. -/
theorem layoutFrom_parity_pos : ∀ (k s : Nat) (data : List Char) (j : Nat), s ≤ j →
    ¬ (j &&& (j - 1) ≠ 0) → (layoutFrom s k data).getD (j - s) '0' = '0' := by
  intro k
  induction k with
  | zero => intro s data j _ _; simp [layoutFrom]
  | succ k ih =>
    intro s data j hsj hj
    rcases Nat.eq_or_lt_of_le hsj with h | h
    · subst h
      unfold layoutFrom
      rw [if_neg hj]
      simp
    · have hsub : j - s = (j - (s + 1)) + 1 := by omega
      unfold layoutFrom
      split_ifs
      · cases data with
        | nil => simp only [hsub, List.getD_cons_succ]; exact ih _ _ j h hj
        | cons d ds => simp only [hsub, List.getD_cons_succ]; exact ih _ _ j h hj
      · simp only [hsub, List.getD_cons_succ]; exact ih _ _ j h hj

/-- Reading the positions that pass the test `i & (i-1) != 0`, in order, gives the data
bits that were placed. -/
theorem layoutFrom_read : ∀ (k s : Nat) (data : List Char),
    (List.range' s k).countP (fun j => j &&& (j - 1) ≠ 0) ≤ data.length →
    ((List.range' s k).filter (fun j => j &&& (j - 1) ≠ 0)).map
        (fun j => (layoutFrom s k data).getD (j - s) '0')
      = data.take ((List.range' s k).countP (fun j => j &&& (j - 1) ≠ 0)) := by
  intro k
  induction k with
  | zero => intro s data _; simp
  | succ k ih =>
    intro s data hcount
    have hshift : ∀ (x : Char) (L : List Char),
        ((List.range' (s + 1) k).filter (fun j => j &&& (j - 1) ≠ 0)).map
          (fun j => (x :: L).getD (j - s) '0')
        = ((List.range' (s + 1) k).filter (fun j => j &&& (j - 1) ≠ 0)).map
          (fun j => L.getD (j - (s + 1)) '0') := by
      intro x L
      apply List.map_congr_left
      intro j hj
      have hj1 : s + 1 ≤ j := (List.mem_range'_1.1 (List.mem_of_mem_filter hj)).1
      have hsub : j - s = (j - (s + 1)) + 1 := by omega
      rw [hsub, List.getD_cons_succ]
    rw [List.range'_succ] at hcount ⊢
    unfold layoutFrom
    by_cases hnp : s &&& (s - 1) ≠ 0
    · rw [List.countP_cons_of_pos _ _ (by simpa using hnp)] at hcount
      rw [if_pos hnp, List.filter_cons_of_pos (by simpa using hnp),
        List.countP_cons_of_pos _ _ (by simpa using hnp)]
      cases data with
      | nil => simp at hcount
      | cons d ds =>
        simp only [List.map_cons, Nat.sub_self, List.getD_cons_zero, List.take_succ_cons]
        rw [hshift, ih _ _ (by simpa using hcount)]
    · rw [List.countP_cons_of_neg _ _ (by simpa using hnp)] at hcount
      rw [if_neg hnp, List.filter_cons_of_neg (by simpa using hnp),
        List.countP_cons_of_neg _ _ (by simpa using hnp)]
      rw [hshift, ih _ _ hcount]

/-! ## Powers of two and the test `i & (i-1)` -/

theorem and_two_pow_eq_zero_iff (j i : Nat) : j &&& 2 ^ i = 0 ↔ j.testBit i = false := by
  constructor
  · intro h
    have := congrArg (fun x => x.testBit i) h
    simpa [Nat.testBit_two_pow_self] using this
  · intro h
    apply Nat.eq_of_testBit_eq
    intro k
    rw [Nat.testBit_and, Nat.testBit_two_pow, Nat.zero_testBit]
    by_cases hik : i = k
    · subst hik; simp [h]
    · simp [hik]

theorem two_pow_and_pred (i : Nat) : 2 ^ i &&& (2 ^ i - 1) = 0 := by
  rw [Nat.and_pow_two_sub_one_eq_mod, Nat.mod_self]

/-- For `j ≥ 1`, the test `j & (j-1) == 0` holds exactly for the powers of two. -/
theorem and_pred_eq_zero_iff (j : Nat) (hj : 1 ≤ j) :
    j &&& (j - 1) = 0 ↔ ∃ i, j = 2 ^ i := by
  constructor
  · intro h
    refine ⟨Nat.log2 j, ?_⟩
    by_contra hne
    have hlow : 2 ^ Nat.log2 j ≤ j := Nat.log2_self_le (by omega)
    have hhigh : j < 2 ^ (Nat.log2 j + 1) := Nat.lt_log2_self
    have hbit : ∀ x, 2 ^ Nat.log2 j ≤ x → x < 2 ^ (Nat.log2 j + 1) →
        x.testBit (Nat.log2 j) = true := by
      intro x h1 h2
      rw [Nat.testBit_to_div_mod]
      have : x / 2 ^ Nat.log2 j = 1 := by
        apply Nat.div_eq_of_lt_le
        · simpa using h1
        · rw [pow_succ] at h2; omega
      simp [this]
    have h1 := hbit j hlow hhigh
    have h2 := hbit (j - 1) (by omega) (by omega)
    have := congrArg (fun x => x.testBit (Nat.log2 j)) h
    simp [h1, h2] at this
  · rintro ⟨i, rfl⟩
    exact two_pow_and_pred i

/-! ## Check groups -/

theorem foldl_xor_eq (t : Nat → Prop) [DecidablePred t] (f : Nat → Nat) (l : List Nat) :
    ∀ a : Nat, l.foldl (fun parity j => if t j then parity ^^^ f j else parity) a
      = a ^^^ xorSum ((l.filter (fun j => decide (t j))).map f) := by
  induction l with
  | nil => intro a; simp [xorSum]
  | cons x rest ih =>
    intro a
    rw [List.foldl_cons, ih]
    by_cases hx : t x
    · rw [if_pos hx, List.filter_cons_of_pos (by simpa using hx)]
      simp only [xorSum, List.map_cons, List.foldr_cons, Nat.xor_assoc]
    · rw [if_neg hx, List.filter_cons_of_neg (by simpa using hx)]

theorem xorSum_le_one (l : List Nat) (h : ∀ x ∈ l, x ≤ 1) : xorSum l ≤ 1 := by
  induction l with
  | nil => simp [xorSum]
  | cons x rest ih =>
    have hx : x ≤ 1 := h x (by simp)
    have hr : xorSum rest ≤ 1 := ih (fun y hy => h y (by simp [hy]))
    have : xorSum (x :: rest) = x ^^^ xorSum rest := rfl
    rw [this]
    interval_cases x <;> interval_cases (xorSum rest) <;> decide

theorem xor_cancel_middle (a s f : Nat) : (f ^^^ s) ^^^ (f ^^^ a) = a ^^^ s := by
  apply Nat.eq_of_testBit_eq
  intro k
  simp only [Nat.testBit_xor]
  cases a.testBit k <;> cases s.testBit k <;> cases f.testBit k <;> rfl

/-- Changing the summand of one index `j0` of a duplicate-free index list. -/
theorem xorSum_map_update (l : List Nat) (hl : l.Nodup) (f g : Nat → Nat) (j0 : Nat)
    (hfg : ∀ j ∈ l, j ≠ j0 → g j = f j) :
    xorSum (l.map g) = xorSum (l.map f) ^^^ (if j0 ∈ l then f j0 ^^^ g j0 else 0) := by
  induction l with
  | nil => simp [xorSum]
  | cons x rest ih =>
    obtain ⟨hx, hrest⟩ := List.nodup_cons.1 hl
    have ih1 := ih hrest (fun j hj hne => hfg j (by simp [hj]) hne)
    have e1 : xorSum ((x :: rest).map g) = g x ^^^ xorSum (rest.map g) := rfl
    have e2 : xorSum ((x :: rest).map f) = f x ^^^ xorSum (rest.map f) := rfl
    rw [e1, e2, ih1]
    by_cases hxj : x = j0
    · subst hxj
      rw [if_neg hx, if_pos (List.mem_cons_self x rest), Nat.xor_zero, xor_cancel_middle]
    · have hgx : g x = f x := hfg x (by simp) hxj
      have hmem : (j0 ∈ x :: rest) ↔ j0 ∈ rest := by
        simp only [List.mem_cons]
        constructor
        · rintro (h | h)
          · exact absurd h.symm hxj
          · exact h
        · exact Or.inr
      simp only [hmem, hgx, Nat.xor_assoc]

theorem getD_set (w : List Char) (p : Nat) (x : Char) (q : Nat) :
    (w.set p x).getD q '0' = if p = q ∧ p < w.length then x else w.getD q '0' := by
  simp only [List.getD_eq_getElem?_getD, List.getElem?_set]
  by_cases hpq : p = q
  · subst hpq
    by_cases hlt : p < w.length
    · simp [hlt]
    · simp [hlt, List.getElem?_eq_none (not_lt.1 hlt)]
  · simp [hpq]

/-- The effect of overwriting index `p` on the parity equation of group `i`. -/
theorem checkGroup_set (w : List Char) (p : Nat) (x : Char) (i : Nat) :
    checkGroup (w.set p x) i = checkGroup w i ^^^
      (if p < w.length ∧ (p + 1) &&& 2 ^ i ≠ 0 then bitValue (w.getD p '0') ^^^ bitValue x
       else 0) := by
  unfold checkGroup
  rw [List.length_set]
  have hnd : ((List.range' 1 w.length).filter (fun j => j &&& 2 ^ i ≠ 0)).Nodup :=
    (List.nodup_range' 1 w.length).filter _
  rw [xorSum_map_update _ hnd (fun j => bitValue (w.getD (j - 1) '0'))
    (fun j => bitValue ((w.set p x).getD (j - 1) '0')) (p + 1)]
  · congr 1
    have hmem : (p + 1 ∈ (List.range' 1 w.length).filter (fun j => j &&& 2 ^ i ≠ 0))
        ↔ (p < w.length ∧ (p + 1) &&& 2 ^ i ≠ 0) := by
      simp only [List.mem_filter, List.mem_range'_1, decide_eq_true_eq]
      constructor
      · rintro ⟨⟨_, h2⟩, h3⟩; exact ⟨by omega, h3⟩
      · rintro ⟨h1, h3⟩; exact ⟨⟨by omega, by omega⟩, h3⟩
    by_cases hc : p < w.length ∧ (p + 1) &&& 2 ^ i ≠ 0
    · rw [if_pos (hmem.2 hc), if_pos hc]
      simp only [Nat.add_sub_cancel, getD_set, hc.1, and_self, if_true]
    · rw [if_neg (fun h => hc (hmem.1 h)), if_neg hc]
  · intro j hj hne
    have hj1 : 1 ≤ j := (List.mem_range'_1.1 (List.mem_of_mem_filter hj)).1
    rw [getD_set, if_neg (by omega)]

theorem and_two_pow_of_lt (j i : Nat) (h : j < 2 ^ i) : j &&& 2 ^ i = 0 :=
  (and_two_pow_eq_zero_iff j i).2 (Nat.testBit_lt_two_pow h)

/-- The inner loop, which starts at `pos = 2^i`, computes the parity equation of group `i`. -/
theorem groupParity_eq_checkGroup (w : List Char) (i : Nat) (h : 2 ^ i ≤ w.length) :
    groupParity w (2 ^ i) w.length = checkGroup w i := by
  unfold groupParity checkGroup
  have hfold := foldl_xor_eq (fun j => j &&& 2 ^ i ≠ 0)
    (fun j => bitValue (w.getD (j - 1) '0')) (List.range' (2 ^ i) (w.length + 1 - 2 ^ i)) 0
  rw [hfold, Nat.zero_xor]
  have hpos : 1 ≤ 2 ^ i := Nat.one_le_two_pow
  have hsplit : List.range' 1 w.length
      = List.range' 1 (2 ^ i - 1) ++ List.range' (2 ^ i) (w.length + 1 - 2 ^ i) := by
    have := List.range'_append_1 1 (2 ^ i - 1) (w.length + 1 - 2 ^ i)
    rw [show 1 + (2 ^ i - 1) = 2 ^ i by omega,
      show w.length + 1 - 2 ^ i + (2 ^ i - 1) = w.length by omega] at this
    exact this.symm
  rw [hsplit, List.filter_append]
  have hnone : (List.range' 1 (2 ^ i - 1)).filter (fun j => j &&& 2 ^ i ≠ 0) = [] := by
    rw [List.filter_eq_nil_iff]
    intro j hj
    have hlt : j < 2 ^ i := by
      have := (List.mem_range'_1.1 hj).2
      omega
    simp [and_two_pow_of_lt j i hlt]
  rw [hnone, List.nil_append]

/-! ## The parity pass -/

theorem fillParity_succ (n t : Nat) (code : List Char) :
    fillParity n (t + 1) code =
      (fillParity n t code).set (2 ^ t - 1)
        (Char.ofNat (groupParity (fillParity n t code) (2 ^ t) n + '0'.toNat)) := by
  unfold fillParity
  rw [List.range_succ, List.foldl_append]
  simp only [List.foldl_cons, List.foldl_nil, Nat.one_shiftLeft]

theorem two_pow_sub_one_ne (i t : Nat) (h : i ≠ t) : ¬ (2 ^ t - 1 = 2 ^ i - 1) := by
  intro heq
  have h1 : 1 ≤ 2 ^ t := Nat.one_le_two_pow
  have h2 : 1 ≤ 2 ^ i := Nat.one_le_two_pow
  have : 2 ^ t = 2 ^ i := by omega
  exact h (Nat.pow_right_injective (le_refl 2) this).symm

/-- The parity pass keeps the length, leaves every position that is not a power of two
unchanged, and does not touch a parity position before its turn. -/
theorem fillParity_frame (n : Nat) (c0 : List Char) (t : Nat) :
    (fillParity n t c0).length = c0.length ∧
    (∀ i, t ≤ i → (fillParity n t c0).getD (2 ^ i - 1) '0' = c0.getD (2 ^ i - 1) '0') ∧
    (∀ q, (∀ i, q + 1 ≠ 2 ^ i) → (fillParity n t c0).getD q '0' = c0.getD q '0') := by
  induction t with
  | zero => simp [fillParity]
  | succ t ih =>
    obtain ⟨h1, h2, h3⟩ := ih
    rw [fillParity_succ]
    refine ⟨by rw [List.length_set, h1], ?_, ?_⟩
    · intro i hi
      rw [getD_set, if_neg (fun h => two_pow_sub_one_ne i t (by omega) h.1)]
      exact h2 i (by omega)
    · intro q hq
      rw [getD_set, if_neg (fun h => hq t (by
        have : 1 ≤ 2 ^ t := Nat.one_le_two_pow
        omega))]
      exact h3 q hq

theorem bitValue_zero : bitValue '0' = 0 := by decide

theorem bitValue_one : bitValue '1' = 1 := by decide

theorem bitValue_le_one (c : Char) (h : c = '0' ∨ c = '1') : bitValue c ≤ 1 := by
  rcases h with rfl | rfl <;> decide

theorem getD_isBit (w : List Char) (h : ∀ c ∈ w, c = '0' ∨ c = '1') (q : Nat) :
    w.getD q '0' = '0' ∨ w.getD q '0' = '1' := by
  rw [List.getD_eq_getElem?_getD]
  cases hq : w[q]? with
  | none => exact Or.inl rfl
  | some c => exact h c (List.getElem?_mem hq)

theorem checkGroup_le_one (w : List Char) (h : ∀ c ∈ w, c = '0' ∨ c = '1') (i : Nat) :
    checkGroup w i ≤ 1 := by
  unfold checkGroup
  apply xorSum_le_one
  intro x hx
  obtain ⟨j, -, rfl⟩ := List.mem_map.1 hx
  exact bitValue_le_one _ (getD_isBit w h (j - 1))

theorem parityChar (g : Nat) (hg : g ≤ 1) :
    (Char.ofNat (g + '0'.toNat) = '0' ∨ Char.ofNat (g + '0'.toNat) = '1') ∧
    bitValue (Char.ofNat (g + '0'.toNat)) = g := by
  interval_cases g <;> decide

theorem two_pow_and_two_pow_of_ne (t i : Nat) (h : i ≠ t) : 2 ^ t &&& 2 ^ i = 0 :=
  (and_two_pow_eq_zero_iff (2 ^ t) i).2 (Nat.testBit_two_pow_of_ne (Ne.symm h))

/-- After `t` steps of the parity pass over a word of bits whose parity positions hold
`'0'`, the word consists of bits and the first `t` parity equations hold. -/
theorem fillParity_checks (c0 : List Char) (hbits : ∀ c ∈ c0, c = '0' ∨ c = '1')
    (hzero : ∀ i, c0.getD (2 ^ i - 1) '0' = '0') (t : Nat) (ht : ∀ i, i < t → 2 ^ i ≤ c0.length) :
    (∀ c ∈ fillParity c0.length t c0, c = '0' ∨ c = '1') ∧
    (∀ i, i < t → checkGroup (fillParity c0.length t c0) i = 0) := by
  induction t with
  | zero => exact ⟨by simpa [fillParity] using hbits, fun i hi => absurd hi (Nat.not_lt_zero i)⟩
  | succ t ih =>
    obtain ⟨hb, hc⟩ := ih (fun i hi => ht i (by omega))
    obtain ⟨hlen, hfut, -⟩ := fillParity_frame c0.length c0 t
    have hpow : 2 ^ t ≤ (fillParity c0.length t c0).length := by rw [hlen]; exact ht t (by omega)
    have hgp : groupParity (fillParity c0.length t c0) (2 ^ t) c0.length
        = checkGroup (fillParity c0.length t c0) t := by
      have := groupParity_eq_checkGroup (fillParity c0.length t c0) t hpow
      rwa [hlen] at this
    have hg := checkGroup_le_one _ hb t
    obtain ⟨hxbit, hxval⟩ := parityChar _ hg
    have hone : 1 ≤ 2 ^ t := Nat.one_le_two_pow
    rw [fillParity_succ, hgp]
    refine ⟨?_, ?_⟩
    · intro c hcmem
      rcases List.mem_or_eq_of_mem_set hcmem with h | h
      · exact hb c h
      · rw [h]; exact hxbit
    · intro i hi
      rw [checkGroup_set, show 2 ^ t - 1 + 1 = 2 ^ t by omega]
      rcases Nat.lt_succ_iff_lt_or_eq.1 hi with h | h
      · rw [if_neg (fun hcond => hcond.2 (two_pow_and_two_pow_of_ne t i (by omega))),
          Nat.xor_zero]
        exact hc i h
      · subst h
        rw [if_pos ⟨by omega, by rw [Nat.and_self]; omega⟩, hxval, hfut i (le_refl i), hzero i,
          bitValue_zero, Nat.zero_xor, Nat.xor_self]

/-! ## The codeword -/

theorem addHammingCode_eq (data : List Char) :
    addHammingCode data =
      fillParity (data.length + parityCount data.length) (parityCount data.length)
        (layoutFrom 1 (data.length + parityCount data.length) data) := by
  unfold addHammingCode
  simp only [placeData_eq]

theorem layout_zero_at_parity (n : Nat) (data : List Char) (i : Nat) :
    (layoutFrom 1 n data).getD (2 ^ i - 1) '0' = '0' :=
  layoutFrom_parity_pos n 1 data (2 ^ i) Nat.one_le_two_pow
    (by rw [two_pow_and_pred]; simp)

/-- The positions `1..n` that hold parity bits are `2^0, .., 2^(r-1)`. -/
theorem parity_positions (m : Nat) (j : Nat)
    (hj2 : j ≤ m + parityCount m) :
    (∃ k, j = 2 ^ k) ↔ ∃ i, i < parityCount m ∧ j = 2 ^ i := by
  constructor
  · rintro ⟨k, rfl⟩
    refine ⟨k, ?_, rfl⟩
    have h := (parityCount_spec m).1
    have hlt : 2 ^ k < 2 ^ parityCount m := by omega
    exact (Nat.pow_lt_pow_iff_right (by decide)).1 hlt
  · rintro ⟨i, -, rfl⟩
    exact ⟨i, rfl⟩

theorem countP_add_filter_not (p : Nat → Prop) [DecidablePred p] (l : List Nat) :
    l.countP (fun j => decide (p j)) + (l.filter (fun j => decide (¬ p j))).length = l.length := by
  induction l with
  | nil => rfl
  | cons x rest ih =>
    by_cases hx : p x
    · rw [List.countP_cons_of_pos _ _ (by simpa using hx),
        List.filter_cons_of_neg (by simpa using hx), List.length_cons]
      omega
    · rw [List.countP_cons_of_neg _ _ (by simpa using hx),
        List.filter_cons_of_pos (by simpa using hx), List.length_cons, List.length_cons]
      omega

/-- Among the positions `1..m+r` exactly `m` are not powers of two. -/
theorem count_data_positions (m : Nat) (hm : 1 ≤ m) :
    (List.range' 1 (m + parityCount m)).countP (fun j => j &&& (j - 1) ≠ 0) = m := by
  have hperm : ((List.range' 1 (m + parityCount m)).filter (fun j => ¬ (j &&& (j - 1) ≠ 0))).Perm
      ((List.range (parityCount m)).map (fun i => 2 ^ i)) := by
    rw [List.perm_ext_iff_of_nodup ((List.nodup_range' 1 _).filter _)
      ((List.nodup_range _).map (Nat.pow_right_injective (le_refl 2)))]
    intro j
    simp only [List.mem_filter, List.mem_range'_1, decide_eq_true_eq, not_not, List.mem_map,
      List.mem_range]
    constructor
    · rintro ⟨⟨h1, h2⟩, h3⟩
      obtain ⟨i, hi, rfl⟩ := (parity_positions m j (by omega)).1
        ((and_pred_eq_zero_iff j h1).1 h3)
      exact ⟨i, hi, rfl⟩
    · rintro ⟨i, hi, rfl⟩
      have := two_pow_lt_length m hm i hi
      have h1 : 1 ≤ 2 ^ i := Nat.one_le_two_pow
      exact ⟨⟨h1, by omega⟩, two_pow_and_pred i⟩
  have hlen := hperm.length_eq
  rw [List.length_map, List.length_range] at hlen
  have htot := countP_add_filter_not (fun j => j &&& (j - 1) ≠ 0)
    (List.range' 1 (m + parityCount m))
  rw [List.length_range'] at htot
  omega

theorem addHammingCode_checks (data : List Char) (hne : data ≠ [])
    (hbits : ∀ c ∈ data, c = '0' ∨ c = '1') :
    (∀ c ∈ addHammingCode data, c = '0' ∨ c = '1') ∧
    ∀ i, i < parityCount data.length → checkGroup (addHammingCode data) i = 0 := by
  have hm : 1 ≤ data.length := List.length_pos.2 hne
  have hlen : (layoutFrom 1 (data.length + parityCount data.length) data).length
      = data.length + parityCount data.length := layoutFrom_length _ _ _
  have h := fillParity_checks (layoutFrom 1 (data.length + parityCount data.length) data)
    (fun c hc => by
      rcases layoutFrom_mem _ _ _ c hc with h | h
      · exact Or.inl h
      · exact hbits c h)
    (layout_zero_at_parity _ data) (parityCount data.length)
    (fun i hi => by rw [hlen]; exact (two_pow_lt_length data.length hm i hi).le)
  rw [hlen, ← addHammingCode_eq] at h
  exact h

theorem exists_parity_bit (k r : Nat) (hk : 1 ≤ k) (hlt : k < 2 ^ r) :
    ∃ i, i < r ∧ k &&& 2 ^ i ≠ 0 := by
  obtain ⟨i, hi⟩ := Nat.ne_zero_implies_bit_true (show k ≠ 0 by omega)
  refine ⟨i, ?_, ?_⟩
  · by_contra hge
    have hle : 2 ^ r ≤ 2 ^ i := Nat.pow_le_pow_right (by decide) (by omega)
    have := Nat.testBit_lt_two_pow (show k < 2 ^ i by omega)
    rw [hi] at this
    exact absurd this (by decide)
  · intro h0
    have := (and_two_pow_eq_zero_iff k i).1 h0
    rw [hi] at this
    exact absurd this (by decide)

theorem bitValue_flip (c : Char) (h : c = '0' ∨ c = '1') :
    bitValue c ^^^ bitValue (flipBit c) = 1 := by
  rcases h with rfl | rfl <;> decide

/-! ## Claims on the Hamming encoder -/

/-- C5: for every non-empty bitstring `data`, every parity equation `i < r` of the codeword
`addHammingCode data` holds: the XOR of its bits at the positions `j ≤ n` with
`j & 2^i ≠ 0`, the parity position included, is `0`. -/
theorem hamming_parity_equations (data : List Char) (hne : data ≠ [])
    (hbits : ∀ c ∈ data, c = '0' ∨ c = '1') :
    ∀ i, i < parityCount data.length → checkGroup (addHammingCode data) i = 0 :=
  (addHammingCode_checks data hne hbits).2

/-- C5, the scenario of the specification: `"1011"` gives the 7-bit codeword `"0110011"`,
whose check groups of the positions 1, 2 and 4 all XOR to `0`. -/
theorem hamming_parity_equations_witness :
    addHammingCode ['1', '0', '1', '1'] = ['0', '1', '1', '0', '0', '1', '1'] ∧
    parityCount ['1', '0', '1', '1'].length = 3 ∧
    checkGroup (addHammingCode ['1', '0', '1', '1']) 0 = 0 ∧
    checkGroup (addHammingCode ['1', '0', '1', '1']) 1 = 0 ∧
    checkGroup (addHammingCode ['1', '0', '1', '1']) 2 = 0 :=
  ⟨by decide, by decide,
    hamming_parity_equations ['1', '0', '1', '1'] (by decide) (by decide) 0 (by decide),
    hamming_parity_equations ['1', '0', '1', '1'] (by decide) (by decide) 1 (by decide),
    hamming_parity_equations ['1', '0', '1', '1'] (by decide) (by decide) 2 (by decide)⟩

/-- C6: for every non-empty bitstring `data` and every position `1 ≤ k ≤ n`, flipping bit
`k` of `addHammingCode data` gives a word for which a parity equation `i < r` is non-zero. -/
theorem hamming_single_error_detected (data : List Char) (hne : data ≠ [])
    (hbits : ∀ c ∈ data, c = '0' ∨ c = '1') (k : Nat) (hk1 : 1 ≤ k)
    (hk2 : k ≤ (addHammingCode data).length) :
    ∃ i, i < parityCount data.length ∧
      checkGroup ((addHammingCode data).set (k - 1)
        (flipBit ((addHammingCode data).getD (k - 1) '0'))) i ≠ 0 := by
  obtain ⟨hcbits, hchecks⟩ := addHammingCode_checks data hne hbits
  have hlen := addHammingCode_length data
  have hspec := (parityCount_spec data.length).1
  obtain ⟨i, hi, hbit⟩ := exists_parity_bit k (parityCount data.length) hk1 (by omega)
  refine ⟨i, hi, ?_⟩
  rw [checkGroup_set, show k - 1 + 1 = k by omega, if_pos ⟨by omega, hbit⟩, hchecks i hi,
    Nat.zero_xor, bitValue_flip _ (getD_isBit _ hcbits _)]
  decide

/-- C6 on `"1011"`: flipping bit 3 of the codeword `"0110011"` gives `"0100011"`, for which
the parity equation of group 0 is `1`. -/
theorem hamming_single_error_detected_witness :
    (addHammingCode ['1', '0', '1', '1']).set 2
        (flipBit ((addHammingCode ['1', '0', '1', '1']).getD 2 '0'))
      = ['0', '1', '0', '0', '0', '1', '1'] ∧
    checkGroup ['0', '1', '0', '0', '0', '1', '1'] 0 = 1 ∧
    ∃ i, i < parityCount ['1', '0', '1', '1'].length ∧
      checkGroup ((addHammingCode ['1', '0', '1', '1']).set (3 - 1)
        (flipBit ((addHammingCode ['1', '0', '1', '1']).getD (3 - 1) '0'))) i ≠ 0 :=
  ⟨by decide, by decide,
    hamming_single_error_detected ['1', '0', '1', '1'] (by decide) (by decide) 3 (by decide)
      (by decide)⟩

/-- C8: for every non-empty `data`, reading the codeword `addHammingCode data` at the
1-indexed positions that fail to be powers of two, in increasing order, gives exactly
`data`; the test `j & (j-1) == 0` singles out the powers of two; and the powers of two
within `1..n` are exactly the `r` parity positions `2^0, .., 2^(r-1)`, all of which lie
within `1..n`. -/
theorem hamming_systematic_layout (data : List Char) (hne : data ≠ []) :
    ((List.range' 1 (addHammingCode data).length).filter (fun j => j &&& (j - 1) ≠ 0)).map
        (fun j => (addHammingCode data).getD (j - 1) '0') = data ∧
    (∀ j, 1 ≤ j → (j &&& (j - 1) = 0 ↔ ∃ k, j = 2 ^ k)) ∧
    (∀ j, 1 ≤ j → j ≤ (addHammingCode data).length →
      ((∃ k, j = 2 ^ k) ↔ ∃ i, i < parityCount data.length ∧ j = 2 ^ i)) ∧
    (∀ i, i < parityCount data.length → 1 ≤ 2 ^ i ∧ 2 ^ i ≤ (addHammingCode data).length) := by
  have hm : 1 ≤ data.length := List.length_pos.2 hne
  have hlen := addHammingCode_length data
  refine ⟨?_, and_pred_eq_zero_iff, ?_, ?_⟩
  · rw [hlen]
    have hcount := count_data_positions data.length hm
    have hread := layoutFrom_read (data.length + parityCount data.length) 1 data
      (by rw [hcount])
    rw [hcount, List.take_length] at hread
    refine Eq.trans ?_ hread
    apply List.map_congr_left
    intro j hj
    have hj1 : 1 ≤ j := (List.mem_range'_1.1 (List.mem_of_mem_filter hj)).1
    have hnp : j &&& (j - 1) ≠ 0 := by simpa using (List.mem_filter.1 hj).2
    rw [addHammingCode_eq]
    apply (fillParity_frame _ _ _).2.2
    intro i hi
    apply hnp
    rw [show j = 2 ^ i by omega]
    exact two_pow_and_pred i
  · intro j _ hj2
    exact parity_positions data.length j (by omega)
  · intro i hi
    exact ⟨Nat.one_le_two_pow, by rw [hlen]; exact (two_pow_lt_length data.length hm i hi).le⟩

/-- C8 on `"1011"`: the codeword `"0110011"` read at the positions 3, 5, 6, 7 gives
`"1011"`. -/
theorem hamming_systematic_layout_witness :
    (List.range' 1 7).filter (fun j => j &&& (j - 1) ≠ 0) = [3, 5, 6, 7] ∧
    addHammingCode ['1', '0', '1', '1'] = ['0', '1', '1', '0', '0', '1', '1'] ∧
    ((List.range' 1 (addHammingCode ['1', '0', '1', '1']).length).filter
        (fun j => j &&& (j - 1) ≠ 0)).map
      (fun j => (addHammingCode ['1', '0', '1', '1']).getD (j - 1) '0') = ['1', '0', '1', '1'] :=
  ⟨by decide, by decide, (hamming_systematic_layout ['1', '0', '1', '1'] (by decide)).1⟩

/-! ## Rendering of the codeword -/

theorem decodeLoop_length_le (P : List (Char × Interval)) :
    ∀ (k : Nat) (v : ℚ), (decodeLoop P k v).length ≤ k := by
  intro k
  induction k with
  | zero => intro v; simp [decodeLoop]
  | succ k ih =>
    intro v
    unfold decodeLoop
    cases h : decodeScan v P with
    | none => simp
    | some cv =>
      obtain ⟨c, v1⟩ := cv
      simp only [List.length_cons]
      exact Nat.succ_le_succ (ih v1)

theorem decodeLoop_prefix (P : List (Char × Interval)) :
    ∀ (k : Nat) (v : ℚ), decodeLoop P k v <+: decodeLoop P (k + 1) v := by
  intro k
  induction k with
  | zero => intro v; simp [decodeLoop]
  | succ k ih =>
    intro v
    rw [decodeLoop, decodeLoop]
    cases h : decodeScan v P with
    | none => simp
    | some cv =>
      obtain ⟨c, v1⟩ := cv
      simp only
      exact (List.prefix_cons_inj c).2 (ih v1)

/-- Once a step finds no entry, further iterations add nothing. -/
theorem decodeLoop_stall (P : List (Char × Interval)) :
    ∀ (k : Nat) (v : ℚ), (decodeLoop P k v).length < k →
      ∀ j, k ≤ j → decodeLoop P j v = decodeLoop P k v := by
  intro k
  induction k with
  | zero => intro v h; simp at h
  | succ k ih =>
    intro v h j hj
    obtain ⟨j1, rfl⟩ : ∃ j1, j = j1 + 1 := ⟨j - 1, by omega⟩
    rw [decodeLoop] at h ⊢
    rw [decodeLoop]
    cases hs : decodeScan v P with
    | none => rfl
    | some cv =>
      obtain ⟨c, v1⟩ := cv
      rw [hs] at h
      simp only [List.length_cons, Nat.succ_lt_succ_iff] at h
      simp only
      rw [ih v1 h j1 (by omega)]

/-- C12: `decode v N P` has at most `max N 0` characters; it is a prefix of
`decode v (N + 1) P`; and when it is shorter than `N` (a step found no entry, decoding
stopped), every larger count returns the same symbols. -/
theorem decode_length_and_prefix (v : ℚ) (N : Int) (P : List (Char × Interval)) :
    ((decode v N P).length : Int) ≤ max N 0 ∧
    decode v N P <+: decode v (N + 1) P ∧
    (∀ M : Int, N ≤ M → ((decode v N P).length : Int) < N → decode v M P = decode v N P) := by
  unfold decode
  refine ⟨?_, ?_, ?_⟩
  · have := decodeLoop_length_le P N.toNat v
    omega
  · rcases lt_or_le N 0 with h | h
    · have h1 : N.toNat = 0 := by omega
      have h2 : (N + 1).toNat = 0 := by omega
      rw [h1, h2]
    · have h1 : (N + 1).toNat = N.toNat + 1 := by omega
      rw [h1]
      exact decodeLoop_prefix P N.toNat v
  · intro M hM hlt
    exact decodeLoop_stall P N.toNat v (by omega) M.toNat (by omega)

/-- The match test of `decode` admits only entries of positive width. -/
theorem match_width_pos (value : ℚ) (iv : Interval)
    (h : (isGreaterOrEqual value iv.low && isLess value iv.high) = true) :
    0 < iv.high - iv.low := by
  rw [Bool.and_eq_true, isGreaterOrEqual_iff, isLess_iff] at h
  linarith [h.1, h.2]

/-- A successful scan returns the first matching entry and the clamped quotient. -/
theorem decodeScan_some (value : ℚ) (P : List (Char × Interval)) (c : Char) (v1 : ℚ)
    (h : decodeScan value P = some (c, v1)) :
    ∃ iv, (c, iv) ∈ P ∧ (isGreaterOrEqual value iv.low && isLess value iv.high) = true ∧
      v1 = (if (if isGreaterOrEqual ((value - iv.low) / (iv.high - iv.low)) 1 then 1 - EPSILON
              else (value - iv.low) / (iv.high - iv.low)) < 0 then 0
          else (if isGreaterOrEqual ((value - iv.low) / (iv.high - iv.low)) 1 then 1 - EPSILON
              else (value - iv.low) / (iv.high - iv.low))) := by
  induction P with
  | nil => simp [decodeScan] at h
  | cons x rest ih =>
    obtain ⟨c1, iv1⟩ := x
    unfold decodeScan at h
    by_cases hm : (isGreaterOrEqual value iv1.low && isLess value iv1.high) = true
    · rw [if_pos hm] at h
      simp only [Option.some.injEq, Prod.mk.injEq] at h
      obtain ⟨rfl, rfl⟩ := h
      exact ⟨iv1, by simp, hm, rfl⟩
    · rw [if_neg hm] at h
      obtain ⟨iv, hmem, hrest⟩ := ih h
      exact ⟨iv, by simp [hmem], hrest⟩

/-- C18: in every partition `P` (entries with `high ≤ low` included) an entry that passes
the match test `isGreaterOrEqual(value, low) && isLess(value, high)` has `high - low > 0`;
in particular the entry whose quotient `decode` computes has a positive width. -/
theorem decode_division_guarded (P : List (Char × Interval)) (value : ℚ)
    (e : Char × Interval) (_he : e ∈ P)
    (hmatch : (isGreaterOrEqual value e.2.low && isLess value e.2.high) = true) :
    0 < e.2.high - e.2.low ∧
    (∀ (c : Char) (v1 : ℚ), decodeScan value P = some (c, v1) →
      ∃ iv, (c, iv) ∈ P ∧ (isGreaterOrEqual value iv.low && isLess value iv.high) = true ∧
        0 < iv.high - iv.low) := by
  refine ⟨match_width_pos value e.2 hmatch, ?_⟩
  intro c v1 h
  obtain ⟨iv, hmem, hm, -⟩ := decodeScan_some value P c v1 h
  exact ⟨iv, hmem, hm, match_width_pos value iv hm⟩

/-- C18 on a partition with a reversed entry: at `value = 1/2` the entry `B = [3/4, 1/4)`
fails the test, the entry `A = [0, 3/4)` passes it and has width `3/4 > 0`. -/
theorem decode_division_guarded_witness :
    (isGreaterOrEqual (1 / 2) (3 / 4) && isLess (1 / 2) (1 / 4)) = false ∧
    (isGreaterOrEqual (1 / 2) 0 && isLess (1 / 2) (3 / 4)) = true ∧
    (0 : ℚ) < 3 / 4 - 0 :=
  ⟨by decide!, by decide!,
    (decode_division_guarded [('B', ⟨3 / 4, 1 / 4⟩), ('A', ⟨0, 3 / 4⟩)] (1 / 2) ('A', ⟨0, 3 / 4⟩)
      (by simp) (by decide!)).1⟩

/-! ## The encoder: unknown symbols -/

theorem encodeLoop_eq_none_iff (P : List (Char × Interval)) (input : List Char) :
    ∀ low high : ℚ, encodeLoop P low high input = none ↔ ∃ c ∈ input, P.lookup c = none := by
  induction input with
  | nil => intro low high; simp [encodeLoop]
  | cons ch rest ih =>
    intro low high
    unfold encodeLoop
    cases hl : P.lookup ch with
    | none =>
      simp only
      exact ⟨fun _ => ⟨ch, List.mem_cons_self _ _, hl⟩, fun _ => trivial⟩
    | some iv =>
      simp only
      rw [ih]
      constructor
      · rintro ⟨c, hc, h⟩
        exact ⟨c, List.mem_cons_of_mem _ hc, h⟩
      · rintro ⟨c, hc, h⟩
        rcases List.mem_cons.1 hc with rfl | hc
        · rw [hl] at h
          exact absurd h (by simp)
        · exact ⟨c, hc, h⟩

/-- C13: `encode input P` fails exactly when some character of `input` has no entry in
`P`; when every character has an entry it returns an interval; on the empty input it
returns `(0, 1)`. -/
theorem encode_unknown_symbol (input : List Char) (P : List (Char × Interval)) :
    (encode input P = none ↔ ∃ c ∈ input, P.lookup c = none) ∧
    ((∀ c ∈ input, ∃ iv, P.lookup c = some iv) →
      ∃ low high : ℚ, encode input P = some (low, high)) ∧
    encode [] P = some (0, 1) := by
  have hiff := encodeLoop_eq_none_iff P input 0 1
  refine ⟨hiff, ?_, rfl⟩
  intro hall
  cases henc : encode input P with
  | none =>
    obtain ⟨c, hc, hnone⟩ := hiff.1 henc
    obtain ⟨iv, hiv⟩ := hall c hc
    rw [hnone] at hiv
    exact absurd hiv (by simp)
  | some lh => exact ⟨lh.1, lh.2, rfl⟩

/-! ## Empty inputs -/

/-- C14 as stated fails: on the input of length 0 `calculateProbabilities` returns a
table, the empty one. -/
theorem calculateProbabilities_empty_counterexample :
    ([] : List Char).length = 0 ∧ calculateProbabilities [] = [] :=
  ⟨rfl, rfl⟩

/-- C14 (as amended): on every input of length 0 `calculateProbabilities` returns the
empty table. -/
theorem calculateProbabilities_of_length_zero (input : List Char) (h : input.length = 0) :
    calculateProbabilities input = [] := by
  rw [List.length_eq_zero] at h
  subst h
  rfl

/-- C14 on the empty string: the table is empty, and so is the partition built from it. -/
theorem calculateProbabilities_of_length_zero_witness :
    calculateProbabilities [] = [] ∧ buildIntervals (calculateProbabilities []) = [] :=
  ⟨calculateProbabilities_of_length_zero [] rfl, rfl⟩

/-- C15 as stated fails: on the bitstring of length 0 `addHammingCode` returns a
codeword, the empty one, with `r = 0`. -/
theorem addHammingCode_empty_counterexample :
    ([] : List Char).length = 0 ∧ parityCount 0 = 0 ∧ addHammingCode [] = [] :=
  ⟨rfl, by decide, by decide⟩

/-- C15 (as amended): on every data string of length 0 `addHammingCode` chooses `r = 0`
and returns the empty codeword. -/
theorem addHammingCode_of_length_zero (data : List Char) (h : data.length = 0) :
    parityCount data.length = 0 ∧ addHammingCode data = [] := by
  rw [List.length_eq_zero] at h
  subst h
  exact ⟨by decide, by decide⟩

/-- C15 on the empty string: no parity bit, empty codeword. -/
theorem addHammingCode_of_length_zero_witness :
    parityCount ([] : List Char).length = 0 ∧ addHammingCode [] = [] :=
  addHammingCode_of_length_zero [] rfl

/-! ## The encoder: narrowing of the running interval -/

/-- Contiguity from its description by positions: first `low`, last `high`, every
`low < high`, every `low` equal to the previous `high`. -/
theorem Contiguous.of_index (P : List (Char × Interval)) :
    ∀ (a b : ℚ), P ≠ [] → (∀ e, P.head? = some e → e.2.low = a) →
      (∀ e, P.getLast? = some e → e.2.high = b) → (∀ e ∈ P, e.2.low < e.2.high) →
      (∀ (i : Nat) (e e1 : Char × Interval), P[i]? = some e → P[i + 1]? = some e1 →
        e1.2.low = e.2.high) →
      Contiguous a P b := by
  induction P with
  | nil => intro a b h; exact absurd rfl h
  | cons x rest ih =>
    intro a b _ hfirst hlast hpos hnext
    obtain ⟨c, iv⟩ := x
    refine ⟨hfirst (c, iv) rfl, hpos (c, iv) (by simp), ?_⟩
    cases rest with
    | nil => exact hlast (c, iv) rfl
    | cons y rest1 =>
      apply ih iv.high b (by simp)
      · intro e he
        simp only [List.head?_cons, Option.some.injEq] at he
        subst he
        exact hnext 0 (c, iv) y (by simp) (by simp)
      · intro e he
        apply hlast e
        rw [List.getLast?_cons_cons]
        exact he
      · intro e he
        exact hpos e (List.mem_cons_of_mem _ he)
      · intro i e e1 he he1
        exact hnext (i + 1) e e1 (by simpa using he) (by simpa using he1)

theorem EPSILON_le_one : EPSILON ≤ 1 := by
  unfold EPSILON; norm_num

/-- Whatever the partition, the value handed to the next step lies in `[0, 1 - EPSILON]`. -/
theorem decodeScan_range (value : ℚ) (P : List (Char × Interval)) (c : Char) (v1 : ℚ)
    (h : decodeScan value P = some (c, v1)) : 0 ≤ v1 ∧ v1 ≤ 1 - EPSILON := by
  have hε := EPSILON_le_one
  obtain ⟨iv, -, -, rfl⟩ := decodeScan_some value P c v1 h
  by_cases hge : isGreaterOrEqual ((value - iv.low) / (iv.high - iv.low)) 1 = true
  · rw [if_pos hge]
    have hnn : ¬ (1 - EPSILON < 0) := by linarith
    rw [if_neg hnn]
    exact ⟨by linarith, le_refl _⟩
  · rw [if_neg hge]
    have hle : (value - iv.low) / (iv.high - iv.low) ≤ 1 - EPSILON := by
      by_contra hcon
      exact hge ((isGreaterOrEqual_iff _ _).2 (not_le.1 hcon))
    by_cases hneg : (value - iv.low) / (iv.high - iv.low) < 0
    · rw [if_pos hneg]
      exact ⟨le_refl _, by linarith⟩
    · rw [if_neg hneg]
      exact ⟨not_lt.1 hneg, hle⟩

theorem decodeScan_of_match (value : ℚ) (P : List (Char × Interval))
    (h : ∃ e ∈ P, (isGreaterOrEqual value e.2.low && isLess value e.2.high) = true) :
    ∃ c v1, decodeScan value P = some (c, v1) := by
  induction P with
  | nil => obtain ⟨e, he, -⟩ := h; simp at he
  | cons x rest ih =>
    obtain ⟨c1, iv1⟩ := x
    unfold decodeScan
    by_cases hm : (isGreaterOrEqual value iv1.low && isLess value iv1.high) = true
    · rw [if_pos hm]
      exact ⟨_, _, rfl⟩
    · rw [if_neg hm]
      apply ih
      obtain ⟨e, he, hme⟩ := h
      rcases List.mem_cons.1 he with rfl | he
      · exact absurd hme hm
      · exact ⟨e, he, hme⟩

/-- The match windows `(low - EPSILON, high - EPSILON]` of a contiguous partition cover
`(a - EPSILON, b - EPSILON]`. -/
theorem Contiguous.exists_match {P : List (Char × Interval)} :
    ∀ {a b : ℚ}, Contiguous a P b → ∀ v : ℚ, a - EPSILON < v → v ≤ b - EPSILON →
      ∃ e ∈ P, (isGreaterOrEqual v e.2.low && isLess v e.2.high) = true := by
  induction P with
  | nil =>
    intro a b h v h1 h2
    have hab : a = b := h
    linarith
  | cons x rest ih =>
    intro a b h v h1 h2
    obtain ⟨c, iv⟩ := x
    obtain ⟨g1, g2, g3⟩ := h
    by_cases hv : v ≤ iv.high - EPSILON
    · refine ⟨(c, iv), by simp, ?_⟩
      rw [Bool.and_eq_true, isGreaterOrEqual_iff, isLess_iff]
      exact ⟨by simp only; linarith, hv⟩
    · obtain ⟨e, he, hm⟩ := ih g3 v (not_le.1 hv) h2
      exact ⟨e, List.mem_cons_of_mem _ he, hm⟩

/-- The match windows of a contiguous partition are pairwise disjoint. -/
theorem Contiguous.match_unique {P : List (Char × Interval)} {a b : ℚ} (h : Contiguous a P b)
    (v : ℚ) (e1 e2 : Char × Interval) (h1 : e1 ∈ P) (h2 : e2 ∈ P)
    (m1 : (isGreaterOrEqual v e1.2.low && isLess v e1.2.high) = true)
    (m2 : (isGreaterOrEqual v e2.2.low && isLess v e2.2.high) = true) : e1 = e2 := by
  rw [Bool.and_eq_true, isGreaterOrEqual_iff, isLess_iff] at m1 m2
  obtain ⟨i, hi⟩ := List.mem_iff_getElem?.1 h1
  obtain ⟨j, hj⟩ := List.mem_iff_getElem?.1 h2
  rcases Nat.lt_trichotomy i j with hij | hij | hij
  · have := h.ordered i j e1 e2 hij hi hj
    linarith [m1.2, m2.1]
  · subst hij
    rw [hi] at hj
    exact Option.some.inj hj
  · have := h.ordered j i e2 e1 hij hj hi
    linarith [m1.1, m2.2]

theorem decodeLoop_length (P : List (Char × Interval)) (hP : Contiguous 0 P 1) :
    ∀ (k : Nat) (v : ℚ), 0 ≤ v → v ≤ 1 - EPSILON → (decodeLoop P k v).length = k := by
  have hε := EPSILON_pos
  intro k
  induction k with
  | zero => intro v _ _; rfl
  | succ k ih =>
    intro v h0 h1
    obtain ⟨c, v1, hs⟩ := decodeScan_of_match v P (hP.exists_match v (by linarith) h1)
    obtain ⟨g0, g1⟩ := decodeScan_range v P c v1 hs
    rw [decodeLoop, hs]
    simp only [List.length_cons]
    rw [ih v1 g0 g1]

/-- C17: for a non-empty partition whose entries in list (ascending symbol) order are
contiguous with first `low = 0`, last `high = 1` and every `low < high`, and a value
`0 ≤ v ≤ 1 - EPSILON`: exactly one entry passes the match test, the scan succeeds and
hands a value in `[0, 1 - EPSILON]` to the next step (so the same holds at every step),
and `decode v N P` has exactly `N` characters for every `N ≥ 0`. -/
theorem decode_never_stalls (P : List (Char × Interval)) (hne : P ≠ [])
    (hfirst : ∀ e, P.head? = some e → e.2.low = 0)
    (hlast : ∀ e, P.getLast? = some e → e.2.high = 1)
    (hpos : ∀ e ∈ P, e.2.low < e.2.high)
    (hnext : ∀ (i : Nat) (e e1 : Char × Interval), P[i]? = some e → P[i + 1]? = some e1 →
      e1.2.low = e.2.high)
    (v : ℚ) (hv0 : 0 ≤ v) (hv1 : v ≤ 1 - EPSILON) (N : Int) (hN : 0 ≤ N) :
    (∃! e, e ∈ P ∧ (isGreaterOrEqual v e.2.low && isLess v e.2.high) = true) ∧
    (∃ c v1, decodeScan v P = some (c, v1) ∧ 0 ≤ v1 ∧ v1 ≤ 1 - EPSILON) ∧
    ((decode v N P).length : Int) = N := by
  have hε := EPSILON_pos
  have hP := Contiguous.of_index P 0 1 hne hfirst hlast hpos hnext
  obtain ⟨e, he, hm⟩ := hP.exists_match v (by linarith) hv1
  obtain ⟨c, v1, hs⟩ := decodeScan_of_match v P ⟨e, he, hm⟩
  refine ⟨⟨e, ⟨he, hm⟩, ?_⟩, ⟨c, v1, hs, decodeScan_range v P c v1 hs⟩, ?_⟩
  · rintro e2 ⟨he2, hm2⟩
    exact hP.match_unique v e2 e he2 he hm2 hm
  · unfold decode
    rw [decodeLoop_length P hP N.toNat v hv0 hv1]
    omega

/-- C17 on the partition of `"AAAB"`: from the value `3/4` the decoder returns the four
symbols `"BAAA"`. -/
theorem decode_never_stalls_witness :
    decode (3 / 4) 4 [('A', ⟨0, 3 / 4⟩), ('B', ⟨3 / 4, 1⟩)] = ['B', 'A', 'A', 'A'] ∧
    ((decode (3 / 4) 4 [('A', ⟨0, 3 / 4⟩), ('B', ⟨3 / 4, 1⟩)]).length : Int) = 4 :=
  ⟨by decide!,
    (decode_never_stalls [('A', ⟨0, 3 / 4⟩), ('B', ⟨3 / 4, 1⟩)] (by simp)
      (by intro e he; simp only [List.head?_cons, Option.some.injEq] at he; subst he; rfl)
      (by
        intro e he
        simp only [List.getLast?_cons_cons, List.getLast?_singleton, Option.some.injEq] at he
        subst he; rfl)
      (by
        intro e he
        simp only [List.mem_cons, List.mem_singleton, List.not_mem_nil, or_false] at he
        rcases he with rfl | rfl <;> norm_num)
      (by
        intro i e e1 he he1
        match i with
        | 0 =>
          simp only [List.getElem?_cons_zero, zero_add, List.getElem?_cons_succ,
            Option.some.injEq] at he he1
          subst he; subst he1; rfl
        | 1 => simp at he1
        | (j + 2) => simp at he)
      (3 / 4) (by norm_num) (by unfold EPSILON; norm_num) 4 (by decide)).2.2⟩

/-! ## Unique decodability of the interval code -/

theorem encode_intervals_ordered (P : List (Char × Interval))
    (hvalid : ∀ (c : Char) (iv : Interval), P.lookup c = some iv →
      0 ≤ iv.low ∧ iv.low < iv.high ∧ iv.high ≤ 1)
    (hdisj : ∀ (a b : Char) (iva ivb : Interval), a ≠ b → P.lookup a = some iva →
      P.lookup b = some ivb → iva.high ≤ ivb.low ∨ ivb.high ≤ iva.low) :
    ∀ (s t : List Char), s.length = t.length → s ≠ t →
      (∀ c ∈ s, ∃ iv, P.lookup c = some iv) → (∀ c ∈ t, ∃ iv, P.lookup c = some iv) →
      ∃ l1 h1 l2 h2 : ℚ, encode s P = some (l1, h1) ∧ encode t P = some (l2, h2) ∧
        (h1 ≤ l2 ∨ h2 ≤ l1) := by
  have hentry : ∀ (u : List Char), (∀ c ∈ u, ∃ iv, P.lookup c = some iv) →
      ∀ c ∈ u, ∃ iv, P.lookup c = some iv ∧ 0 ≤ iv.low ∧ iv.low < iv.high ∧ iv.high ≤ 1 := by
    intro u hu c hc
    obtain ⟨iv, hiv⟩ := hu c hc
    exact ⟨iv, hiv, hvalid c iv hiv⟩
  intro s
  induction s with
  | nil =>
    intro t hlen hst _ _
    have : t = [] := List.length_eq_zero.1 hlen.symm
    exact absurd this.symm hst
  | cons a s1 ih =>
    intro t hlen hst hs ht
    cases t with
    | nil => simp at hlen
    | cons b t1 =>
      obtain ⟨iva, hla⟩ := hs a (by simp)
      obtain ⟨ivb, hlb⟩ := ht b (by simp)
      obtain ⟨a0, a1, a2⟩ := hvalid a iva hla
      obtain ⟨b0, b1, b2⟩ := hvalid b ivb hlb
      have hs1 : ∀ c ∈ s1, ∃ iv, P.lookup c = some iv := fun c hc => hs c (by simp [hc])
      have ht1 : ∀ c ∈ t1, ∃ iv, P.lookup c = some iv := fun c hc => ht c (by simp [hc])
      obtain ⟨x1, y1, e1, p1, q1, r1, -⟩ := encode_interval P s1 (hentry s1 hs1)
      obtain ⟨x2, y2, e2, p2, q2, r2, -⟩ := encode_interval P t1 (hentry t1 ht1)
      have hwa : 0 < iva.high - iva.low := by linarith
      have hwb : 0 < ivb.high - ivb.low := by linarith
      refine ⟨iva.low + (iva.high - iva.low) * x1, iva.low + (iva.high - iva.low) * y1,
        ivb.low + (ivb.high - ivb.low) * x2, ivb.low + (ivb.high - ivb.low) * y2, ?_, ?_, ?_⟩
      · rw [encode_cons P a s1 iva hla, e1]; rfl
      · rw [encode_cons P b t1 ivb hlb, e2]; rfl
      · have ua : iva.low + (iva.high - iva.low) * y1 ≤ iva.high := by
          have := mul_le_mul_of_nonneg_left r1 hwa.le
          linarith
        have ub : ivb.low + (ivb.high - ivb.low) * y2 ≤ ivb.high := by
          have := mul_le_mul_of_nonneg_left r2 hwb.le
          linarith
        have la : iva.low ≤ iva.low + (iva.high - iva.low) * x1 := by
          have := mul_nonneg hwa.le p1
          linarith
        have lb : ivb.low ≤ ivb.low + (ivb.high - ivb.low) * x2 := by
          have := mul_nonneg hwb.le p2
          linarith
        by_cases hab : a = b
        · subst hab
          rw [hla] at hlb
          have hiv : iva = ivb := Option.some.inj hlb
          subst hiv
          have hne1 : s1 ≠ t1 := fun h => hst (by rw [h])
          obtain ⟨l1, h1, l2, h2, g1, g2, g3⟩ :=
            ih t1 (by simpa using hlen) hne1 hs1 ht1
          rw [e1] at g1
          rw [e2] at g2
          simp only [Option.some.injEq, Prod.mk.injEq] at g1 g2
          obtain ⟨rfl, rfl⟩ := g1
          obtain ⟨rfl, rfl⟩ := g2
          rcases g3 with g | g
          · left
            have := mul_le_mul_of_nonneg_left g hwa.le
            linarith
          · right
            have := mul_le_mul_of_nonneg_left g hwa.le
            linarith
        · rcases hdisj a b iva ivb hab hla hlb with g | g
          · left; linarith
          · right; linarith

/-- C19: for a partition `P` whose entries lie inside `[0, 1]` with `low < high` and
whose intervals `[low, high)` are pairwise disjoint, and two different strings `s`, `t`
of the same length over the symbols of `P`, `encode s P` and `encode t P` return
intervals `[low, high)` that have no point in common (one ends before the other starts). -/
theorem encode_unique_decodability (P : List (Char × Interval))
    (hvalid : ∀ (c : Char) (iv : Interval), P.lookup c = some iv →
      0 ≤ iv.low ∧ iv.low < iv.high ∧ iv.high ≤ 1)
    (hdisj : ∀ (a b : Char) (iva ivb : Interval), a ≠ b → P.lookup a = some iva →
      P.lookup b = some ivb →
      ∀ x : ℚ, ¬ ((iva.low ≤ x ∧ x < iva.high) ∧ (ivb.low ≤ x ∧ x < ivb.high)))
    (s t : List Char) (hlen : s.length = t.length) (hst : s ≠ t)
    (hs : ∀ c ∈ s, ∃ iv, P.lookup c = some iv) (ht : ∀ c ∈ t, ∃ iv, P.lookup c = some iv) :
    ∃ l1 h1 l2 h2 : ℚ, encode s P = some (l1, h1) ∧ encode t P = some (l2, h2) ∧
      (h1 ≤ l2 ∨ h2 ≤ l1) ∧
      ∀ x : ℚ, ¬ ((l1 ≤ x ∧ x < h1) ∧ (l2 ≤ x ∧ x < h2)) := by
  have hord : ∀ (a b : Char) (iva ivb : Interval), a ≠ b → P.lookup a = some iva →
      P.lookup b = some ivb → iva.high ≤ ivb.low ∨ ivb.high ≤ iva.low := by
    intro a b iva ivb hab hla hlb
    obtain ⟨-, a1, -⟩ := hvalid a iva hla
    obtain ⟨-, b1, -⟩ := hvalid b ivb hlb
    by_contra hcon
    rw [not_or, not_le, not_le] at hcon
    obtain ⟨h1, h2⟩ := hcon
    exact hdisj a b iva ivb hab hla hlb (max iva.low ivb.low)
      ⟨⟨le_max_left _ _, max_lt a1 h1⟩, ⟨le_max_right _ _, max_lt h2 b1⟩⟩
  obtain ⟨l1, h1, l2, h2, g1, g2, g3⟩ :=
    encode_intervals_ordered P hvalid hord s t hlen hst hs ht
  refine ⟨l1, h1, l2, h2, g1, g2, g3, ?_⟩
  rintro x ⟨⟨x1, x2⟩, x3, x4⟩
  rcases g3 with g | g <;> linarith

/-- C19 on the partition of `"AAAB"`: `"AB"` is encoded to `[9/16, 3/4)` and `"BA"` to
`[3/4, 15/16)`, and the first ends where the second starts. -/
theorem encode_unique_decodability_witness :
    encode ['A', 'B'] [('A', ⟨0, 3 / 4⟩), ('B', ⟨3 / 4, 1⟩)] = some (9 / 16, 3 / 4) ∧
    encode ['B', 'A'] [('A', ⟨0, 3 / 4⟩), ('B', ⟨3 / 4, 1⟩)] = some (3 / 4, 15 / 16) ∧
    ∀ x : ℚ, ¬ ((9 / 16 ≤ x ∧ x < 3 / 4) ∧ (3 / 4 ≤ x ∧ x < 15 / 16)) := by
  have hA : List.lookup 'A' [('A', (⟨0, 3 / 4⟩ : Interval)), ('B', ⟨3 / 4, 1⟩)]
      = some ⟨0, 3 / 4⟩ := by decide!
  have hB : List.lookup 'B' [('A', (⟨0, 3 / 4⟩ : Interval)), ('B', ⟨3 / 4, 1⟩)]
      = some ⟨3 / 4, 1⟩ := by decide!
  have hcases : ∀ (c : Char) (iv : Interval),
      List.lookup c [('A', (⟨0, 3 / 4⟩ : Interval)), ('B', ⟨3 / 4, 1⟩)] = some iv →
      (c = 'A' ∧ iv = ⟨0, 3 / 4⟩) ∨ (c = 'B' ∧ iv = ⟨3 / 4, 1⟩) := by
    intro c iv h
    by_cases hcA : c = 'A'
    · subst hcA
      rw [hA] at h
      exact Or.inl ⟨rfl, (Option.some.inj h).symm⟩
    · by_cases hcB : c = 'B'
      · subst hcB
        rw [hB] at h
        exact Or.inr ⟨rfl, (Option.some.inj h).symm⟩
      · have h1 : (c == 'A') = false := by simpa using hcA
        have h2 : (c == 'B') = false := by simpa using hcB
        simp [List.lookup, h1, h2] at h
  have h1 : encode ['A', 'B'] [('A', ⟨0, 3 / 4⟩), ('B', ⟨3 / 4, 1⟩)]
      = some (9 / 16, 3 / 4) := by decide!
  have h2 : encode ['B', 'A'] [('A', ⟨0, 3 / 4⟩), ('B', ⟨3 / 4, 1⟩)]
      = some (3 / 4, 15 / 16) := by decide!
  obtain ⟨l1, u1, l2, u2, g1, g2, -, g4⟩ :=
    encode_unique_decodability [('A', ⟨0, 3 / 4⟩), ('B', ⟨3 / 4, 1⟩)]
      (by
        intro c iv h
        rcases hcases c iv h with ⟨-, rfl⟩ | ⟨-, rfl⟩ <;> norm_num)
      (by
        intro a b iva ivb hab ha hb x
        rcases hcases a iva ha with ⟨rfl, rfl⟩ | ⟨rfl, rfl⟩ <;>
          rcases hcases b ivb hb with ⟨rfl, rfl⟩ | ⟨rfl, rfl⟩
        · exact absurd rfl hab
        · rintro ⟨⟨_, x2⟩, x3, _⟩; simp only at x2 x3; linarith
        · rintro ⟨⟨x1, _⟩, _, x4⟩; simp only at x1 x4; linarith
        · exact absurd rfl hab)
      ['A', 'B'] ['B', 'A'] (by decide) (by decide)
      (by
        intro c hc
        simp only [List.mem_cons, List.mem_singleton, List.not_mem_nil, or_false] at hc
        rcases hc with rfl | rfl
        · exact ⟨_, hA⟩
        · exact ⟨_, hB⟩)
      (by
        intro c hc
        simp only [List.mem_cons, List.mem_singleton, List.not_mem_nil, or_false] at hc
        rcases hc with rfl | rfl
        · exact ⟨_, hB⟩
        · exact ⟨_, hA⟩)
  rw [h1] at g1
  rw [h2] at g2
  simp only [Option.some.injEq, Prod.mk.injEq] at g1 g2
  obtain ⟨rfl, rfl⟩ := g1
  obtain ⟨rfl, rfl⟩ := g2
  exact ⟨h1, h2, g4⟩

/-! ## Minimum distance of the Hamming code -/

theorem xor_swap_middle (a b c d : Nat) : (a ^^^ b) ^^^ (c ^^^ d) = (a ^^^ c) ^^^ (b ^^^ d) := by
  apply Nat.eq_of_testBit_eq
  intro k
  simp only [Nat.testBit_xor]
  cases a.testBit k <;> cases b.testBit k <;> cases c.testBit k <;> cases d.testBit k <;> rfl

theorem xor_bits_ne (a b : Nat) (ha : a ≤ 1) (hb : b ≤ 1) (h : a ≠ b) : a ^^^ b = 1 := by
  interval_cases a <;> interval_cases b <;> first | rfl | exact absurd rfl h

/-- The XOR of two parity sums over the same positions is the parity of the number of
positions where the summands differ. -/
theorem xorSum_xor_eq_parity (f g : Nat → Nat) (hf : ∀ j, f j ≤ 1) (hg : ∀ j, g j ≤ 1)
    (p : Nat → Prop) [DecidablePred p] (l : List Nat) :
    xorSum ((l.filter (fun j => decide (p j))).map f)
        ^^^ xorSum ((l.filter (fun j => decide (p j))).map g)
      = ((l.filter (fun j => decide (f j ≠ g j))).countP (fun j => decide (p j))) % 2 := by
  induction l with
  | nil => simp [xorSum]
  | cons x rest ih =>
    by_cases hp : p x
    · rw [List.filter_cons_of_pos (by simpa using hp)]
      have e1 : ∀ (h : Nat → Nat) (L : List Nat),
          xorSum ((x :: L).map h) = h x ^^^ xorSum (L.map h) := fun _ _ => rfl
      rw [e1, e1, xor_swap_middle, ih]
      by_cases hd : f x = g x
      · rw [List.filter_cons_of_neg (by simpa using hd), hd, Nat.xor_self, Nat.zero_xor]
      · rw [List.filter_cons_of_pos (by simpa using hd),
          List.countP_cons_of_pos _ _ (by simpa using hp), xor_bits_ne _ _ (hf x) (hg x) hd]
        rcases Nat.mod_two_eq_zero_or_one
          ((rest.filter (fun j => decide (f j ≠ g j))).countP (fun j => decide (p j)))
          with h | h
        · rw [h]
          have e0 : (1 : Nat) ^^^ 0 = 1 := by decide
          rw [e0]; omega
        · rw [h]
          have e1 : (1 : Nat) ^^^ 1 = 0 := by decide
          rw [e1]; omega
    · rw [List.filter_cons_of_neg (by simpa using hp), ih]
      by_cases hd : f x = g x
      · rw [List.filter_cons_of_neg (by simpa using hd)]
      · rw [List.filter_cons_of_pos (by simpa using hd),
          List.countP_cons_of_neg _ _ (by simpa using hp)]

theorem bitValue_injective (a b : Char) (ha : a = '0' ∨ a = '1') (hb : b = '0' ∨ b = '1') :
    bitValue a = bitValue b ↔ a = b := by
  rcases ha with rfl | rfl <;> rcases hb with rfl | rfl <;> decide

/-- For two words of bits of the same length, the XOR of their parity equations of group
`i` is the parity of the number of differing positions that belong to group `i`. -/
theorem checkGroup_xor (w1 w2 : List Char) (hlen : w1.length = w2.length)
    (hb1 : ∀ c ∈ w1, c = '0' ∨ c = '1') (hb2 : ∀ c ∈ w2, c = '0' ∨ c = '1') (i : Nat) :
    checkGroup w1 i ^^^ checkGroup w2 i
      = ((differingPositions w1 w2).countP (fun j => j &&& 2 ^ i ≠ 0)) % 2 := by
  unfold checkGroup differingPositions
  rw [← hlen]
  rw [xorSum_xor_eq_parity (fun j => bitValue (w1.getD (j - 1) '0'))
    (fun j => bitValue (w2.getD (j - 1) '0'))
    (fun j => bitValue_le_one _ (getD_isBit w1 hb1 _))
    (fun j => bitValue_le_one _ (getD_isBit w2 hb2 _))
    (fun j => j &&& 2 ^ i ≠ 0) (List.range' 1 w1.length)]
  congr 2
  apply List.filter_congr
  intro j _
  have := bitValue_injective _ _ (getD_isBit w1 hb1 (j - 1)) (getD_isBit w2 hb2 (j - 1))
  simp only [ne_eq, decide_not, this]

theorem eq_of_low_bits (k1 k2 r : Nat) (h1 : k1 < 2 ^ r) (h2 : k2 < 2 ^ r)
    (h : ∀ i, i < r → (k1 &&& 2 ^ i ≠ 0 ↔ k2 &&& 2 ^ i ≠ 0)) : k1 = k2 := by
  apply Nat.eq_of_testBit_eq
  intro i
  rcases Nat.lt_or_ge i r with hi | hi
  · have := h i hi
    rw [Ne, and_two_pow_eq_zero_iff, Ne, and_two_pow_eq_zero_iff] at this
    cases hk1 : k1.testBit i <;> cases hk2 : k2.testBit i <;> simp_all
  · have hle : 2 ^ r ≤ 2 ^ i := Nat.pow_le_pow_right (by decide) hi
    rw [Nat.testBit_lt_two_pow (show k1 < 2 ^ i by omega),
      Nat.testBit_lt_two_pow (show k2 < 2 ^ i by omega)]

/-- The data bits read back from the codeword (the first part of the layout property). -/
theorem addHammingCode_read (data : List Char) (hne : data ≠ []) :
    ((List.range' 1 (data.length + parityCount data.length)).filter
        (fun j => j &&& (j - 1) ≠ 0)).map
      (fun j => (addHammingCode data).getD (j - 1) '0') = data := by
  have hm : 1 ≤ data.length := List.length_pos.2 hne
  have hcount := count_data_positions data.length hm
  have hread := layoutFrom_read (data.length + parityCount data.length) 1 data
    (by rw [hcount])
  rw [hcount, List.take_length] at hread
  refine Eq.trans ?_ hread
  apply List.map_congr_left
  intro j hj
  have hj1 : 1 ≤ j := (List.mem_range'_1.1 (List.mem_of_mem_filter hj)).1
  have hnp : j &&& (j - 1) ≠ 0 := by simpa using (List.mem_filter.1 hj).2
  rw [addHammingCode_eq]
  apply (fillParity_frame _ _ _).2.2
  intro i hi
  apply hnp
  rw [show j = 2 ^ i by omega]
  exact two_pow_and_pred i

/-- C20: for two different bitstrings `d1`, `d2` of the same length `m ≥ 1`, the codewords
`addHammingCode d1` and `addHammingCode d2` have the same length and differ in at least
three positions. -/
theorem hamming_minimum_distance (d1 d2 : List Char) (hm : 1 ≤ d1.length)
    (hlen : d1.length = d2.length) (hne : d1 ≠ d2)
    (hb1 : ∀ c ∈ d1, c = '0' ∨ c = '1') (hb2 : ∀ c ∈ d2, c = '0' ∨ c = '1') :
    (addHammingCode d1).length = (addHammingCode d2).length ∧
    3 ≤ (differingPositions (addHammingCode d1) (addHammingCode d2)).length := by
  have hne1 : d1 ≠ [] := List.length_pos.1 hm
  have hne2 : d2 ≠ [] := List.length_pos.1 (by omega)
  have hl1 := addHammingCode_length d1
  have hl2 := addHammingCode_length d2
  rw [← hlen] at hl2
  have hlc : (addHammingCode d1).length = (addHammingCode d2).length := by rw [hl1, hl2]
  obtain ⟨hcb1, hch1⟩ := addHammingCode_checks d1 hne1 hb1
  obtain ⟨hcb2, hch2⟩ := addHammingCode_checks d2 hne2 hb2
  rw [← hlen] at hch2
  have hspec := (parityCount_spec d1.length).1
  refine ⟨hlc, ?_⟩
  have hpar : ∀ i, i < parityCount d1.length →
      ((differingPositions (addHammingCode d1) (addHammingCode d2)).countP
        (fun j => j &&& 2 ^ i ≠ 0)) % 2 = 0 := by
    intro i hi
    rw [← checkGroup_xor _ _ hlc hcb1 hcb2 i, hch1 i hi, hch2 i hi]
    rfl
  have hmem : ∀ k ∈ differingPositions (addHammingCode d1) (addHammingCode d2),
      1 ≤ k ∧ k < 2 ^ parityCount d1.length := by
    intro k hk
    have := List.mem_range'_1.1 (List.mem_of_mem_filter hk)
    rw [hl1] at this
    exact ⟨this.1, by omega⟩
  have hnd : (differingPositions (addHammingCode d1) (addHammingCode d2)).Nodup :=
    (List.nodup_range' 1 _).filter _
  by_contra hlt
  have hcases : (differingPositions (addHammingCode d1) (addHammingCode d2)).length = 0 ∨
      (differingPositions (addHammingCode d1) (addHammingCode d2)).length = 1 ∨
      (differingPositions (addHammingCode d1) (addHammingCode d2)).length = 2 := by omega
  rcases hcases with h0 | h1 | h2
  · have hnil := List.length_eq_zero.1 h0
    unfold differingPositions at hnil
    rw [List.filter_eq_nil_iff, hl1] at hnil
    apply hne
    rw [← addHammingCode_read d1 hne1, ← addHammingCode_read d2 hne2, ← hlen]
    apply List.map_congr_left
    intro j hj
    have := hnil j (List.mem_of_mem_filter hj)
    simpa using this
  · obtain ⟨k, hk⟩ := List.length_eq_one.1 h1
    rw [hk] at hpar hmem
    obtain ⟨hk1, hk2⟩ := hmem k (by simp)
    obtain ⟨i, hi, hbit⟩ := exists_parity_bit k (parityCount d1.length) hk1 hk2
    have := hpar i hi
    rw [List.countP_cons_of_pos _ _ (by simpa using hbit)] at this
    simp at this
  · obtain ⟨k1, k2, hk⟩ := List.length_eq_two.1 h2
    rw [hk] at hpar hmem hnd
    obtain ⟨-, hk1⟩ := hmem k1 (by simp)
    obtain ⟨-, hk2⟩ := hmem k2 (by simp)
    have hneq : k1 ≠ k2 := by
      intro h
      rw [h] at hnd
      simp at hnd
    apply hneq
    apply eq_of_low_bits k1 k2 (parityCount d1.length) hk1 hk2
    intro i hi
    have := hpar i hi
    by_cases p1 : k1 &&& 2 ^ i ≠ 0 <;> by_cases p2 : k2 &&& 2 ^ i ≠ 0
    · exact ⟨fun _ => p2, fun _ => p1⟩
    · rw [List.countP_cons_of_pos _ _ (by simpa using p1),
        List.countP_cons_of_neg _ _ (by simpa using p2)] at this
      simp at this
    · rw [List.countP_cons_of_neg _ _ (by simpa using p1),
        List.countP_cons_of_pos _ _ (by simpa using p2)] at this
      simp at this
    · exact ⟨fun h => absurd h p1, fun h => absurd h p2⟩

/-- C20 on `"1011"` and `"1010"`: the codewords `"0110011"` and `"1011010"` differ in the
positions 1, 2, 4 and 7. -/
theorem hamming_minimum_distance_witness :
    addHammingCode ['1', '0', '1', '1'] = ['0', '1', '1', '0', '0', '1', '1'] ∧
    addHammingCode ['1', '0', '1', '0'] = ['1', '0', '1', '1', '0', '1', '0'] ∧
    differingPositions (addHammingCode ['1', '0', '1', '1']) (addHammingCode ['1', '0', '1', '0'])
      = [1, 2, 4, 7] ∧
    3 ≤ (differingPositions (addHammingCode ['1', '0', '1', '1'])
      (addHammingCode ['1', '0', '1', '0'])).length :=
  ⟨by decide, by decide, by decide,
    (hamming_minimum_distance ['1', '0', '1', '1'] ['1', '0', '1', '0'] (by decide) (by decide)
      (by decide) (by decide) (by decide)).2⟩

/-! ## The coder over the arithmetic of the libraries -/

theorem calculateProbabilitiesIn_exact (input : List Char) :
    calculateProbabilitiesIn exactNumerics input = calculateProbabilities input := rfl

theorem buildIntervalsIn_exact (T : List (Char × ℚ)) :
    buildIntervalsIn exactNumerics T = buildIntervals T := rfl

theorem encodeLoopIn_exact (P : List (Char × Interval)) (input : List Char) :
    ∀ low high : ℚ, encodeLoopIn exactNumerics P low high input = encodeLoop P low high input := by
  induction input with
  | nil => intro low high; rfl
  | cons ch rest ih =>
    intro low high
    unfold encodeLoopIn encodeLoop
    cases hl : P.lookup ch with
    | none => rfl
    | some iv => exact ih _ _

theorem encodeIn_exact (input : List Char) (P : List (Char × Interval)) :
    encodeIn exactNumerics input P = encode input P :=
  encodeLoopIn_exact P input 0 1

theorem countSymbols_mem (input : List Char) (c : Char) (n : ℚ) (h : (c, n) ∈ countSymbols input) :
    c ∈ input ∧ n = (input.count c : ℚ) := by
  have hl := (mem_iff_lookup _ (counts_spec input).1 c n).1 h
  rw [(counts_spec input).2.1 c] at hl
  by_cases hc : c ∈ input
  · simp only [hc, if_true, Option.some.injEq] at hl
    exact ⟨hc, hl.symm⟩
  · simp [hc] at hl

theorem calculateProbabilitiesIn_keys (N : Numerics) (input : List Char) :
    (calculateProbabilitiesIn N input).map Prod.fst = (calculateProbabilities input).map Prod.fst := by
  unfold calculateProbabilitiesIn calculateProbabilities
  simp [List.map_map, Function.comp_def]

theorem calculateProbabilitiesIn_sorted (N : Numerics) (input : List Char) :
    KeysSorted (calculateProbabilitiesIn N input) := by
  unfold KeysSorted
  rw [calculateProbabilitiesIn_keys]
  exact calculateProbabilities_sorted input

theorem calculateProbabilitiesIn_mem (N : Numerics) (input : List Char) (c : Char) (v : ℚ)
    (h : (c, v) ∈ calculateProbabilitiesIn N input) :
    c ∈ input ∧ v = N.div (input.count c : ℚ) (input.length : ℚ) := by
  unfold calculateProbabilitiesIn at h
  obtain ⟨pair, hp, heq⟩ := List.mem_map.1 h
  obtain ⟨k, n⟩ := pair
  simp only [Prod.mk.injEq] at heq
  obtain ⟨rfl, rfl⟩ := heq
  obtain ⟨hc, rfl⟩ := countSymbols_mem input k n hp
  exact ⟨hc, rfl⟩

/-- When every quotient `count / length` is computed exactly, the table is the exact one. -/
theorem calculateProbabilitiesIn_eq_of_exact (N : Numerics) (input : List Char)
    (h : ∀ c ∈ input, N.div (input.count c : ℚ) (input.length : ℚ)
      = (input.count c : ℚ) / (input.length : ℚ)) :
    calculateProbabilitiesIn N input = calculateProbabilities input := by
  unfold calculateProbabilitiesIn calculateProbabilities
  apply List.map_congr_left
  intro pair hp
  obtain ⟨k, n⟩ := pair
  obtain ⟨hc, rfl⟩ := countSymbols_mem input k n hp
  simp only [h k hc]

theorem buildIntervalsIn_foldl (N : Numerics) (T : List (Char × ℚ)) :
    ∀ (acc : List (Char × Interval)) (low : ℚ), KeysSorted T →
      (∀ a ∈ acc.map Prod.fst, ∀ t ∈ T.map Prod.fst, a < t) →
      (T.foldl
        (fun (st : List (Char × Interval) × ℚ) pair =>
          (upsert pair.1 (fun _ => ⟨st.2, N.add st.2 pair.2⟩) st.1, N.add st.2 pair.2))
        (acc, low)).1 = acc ++ intervalsFromIn N low T := by
  induction T with
  | nil => intro acc low _ _; simp [intervalsFromIn]
  | cons e rest ih =>
    intro acc low hs hlt
    obtain ⟨k, p⟩ := e
    unfold KeysSorted at hs
    simp only [List.map_cons, List.pairwise_cons] at hs
    simp only [List.foldl_cons]
    rw [upsert_append_of_lt k _ acc (fun a ha => hlt a ha k (by simp))]
    rw [ih _ _ hs.2]
    · simp [intervalsFromIn]
    · intro a ha t ht
      simp only [List.map_append, List.map_cons, List.map_nil, List.mem_append,
        List.mem_singleton] at ha
      rcases ha with ha | rfl
      · exact hlt a ha t (by simp [ht])
      · exact hs.1 t ht

theorem buildIntervalsIn_eq (N : Numerics) (T : List (Char × ℚ)) (hs : KeysSorted T) :
    buildIntervalsIn N T = intervalsFromIn N 0 T := by
  unfold buildIntervalsIn
  rw [buildIntervalsIn_foldl N T [] 0 hs (by simp)]
  simp

theorem intervalsFromIn_keys (N : Numerics) (T : List (Char × ℚ)) :
    ∀ low, (intervalsFromIn N low T).map Prod.fst = T.map Prod.fst := by
  induction T with
  | nil => intro low; rfl
  | cons e rest ih => intro low; obtain ⟨k, p⟩ := e; simp [intervalsFromIn, ih]

theorem intervalsFromIn_index (N : Numerics) (T : List (Char × ℚ)) :
    ∀ (low : ℚ) (i : Nat) (e : Char × Interval) (t : Char × ℚ),
      (intervalsFromIn N low T)[i]? = some e → T[i]? = some t →
      e.1 = t.1 ∧ e.2.high = N.add e.2.low t.2 := by
  induction T with
  | nil => intro low i e t he; simp [intervalsFromIn] at he
  | cons x rest ih =>
    intro low i e t he ht
    obtain ⟨k, p⟩ := x
    cases i with
    | zero =>
      simp only [intervalsFromIn, List.getElem?_cons_zero, Option.some.injEq] at he ht
      subst he; subst ht; simp
    | succ i =>
      simp only [intervalsFromIn, List.getElem?_cons_succ] at he ht
      exact ih _ i e t he ht

theorem intervalsFromIn_head (N : Numerics) (T : List (Char × ℚ)) (low : ℚ)
    (e : Char × Interval) (he : (intervalsFromIn N low T).head? = some e) : e.2.low = low := by
  cases T with
  | nil => simp [intervalsFromIn] at he
  | cons x rest =>
    obtain ⟨k, p⟩ := x
    simp only [intervalsFromIn, List.head?_cons, Option.some.injEq] at he
    subst he
    rfl

theorem intervalsFromIn_next (N : Numerics) (T : List (Char × ℚ)) :
    ∀ (low : ℚ) (i : Nat) (e e1 : Char × Interval),
      (intervalsFromIn N low T)[i]? = some e → (intervalsFromIn N low T)[i + 1]? = some e1 →
      e1.2.low = e.2.high := by
  induction T with
  | nil => intro low i e e1 he; simp [intervalsFromIn] at he
  | cons x rest ih =>
    intro low i e e1 he he1
    obtain ⟨k, p⟩ := x
    cases i with
    | zero =>
      simp only [intervalsFromIn, List.getElem?_cons_zero, Option.some.injEq] at he
      subst he
      simp only [intervalsFromIn, zero_add, List.getElem?_cons_succ] at he1
      have := intervalsFromIn_head N rest (N.add low p) e1 (by rw [List.head?_eq_getElem?]; exact he1)
      exact this
    | succ i =>
      simp only [intervalsFromIn, List.getElem?_cons_succ] at he he1
      exact ih _ i e e1 he he1

/-- When every sum `low + probability` taken by `buildIntervals` is computed exactly, the
partition is the exact one. -/
theorem intervalsFromIn_eq_of_exact (N : Numerics) (T : List (Char × ℚ)) :
    ∀ low : ℚ,
      (∀ (i : Nat) (e : Char × Interval) (t : Char × ℚ),
        (intervalsFromIn N low T)[i]? = some e → T[i]? = some t →
        N.add e.2.low t.2 = e.2.low + t.2) →
      intervalsFromIn N low T = intervalsFrom low T := by
  induction T with
  | nil => intro low _; rfl
  | cons x rest ih =>
    intro low h
    obtain ⟨k, p⟩ := x
    have h0 : N.add low p = low + p :=
      h 0 (k, ⟨low, N.add low p⟩) (k, p)
        (by simp only [intervalsFromIn, List.getElem?_cons_zero])
        (by simp only [List.getElem?_cons_zero])
    have hrest : intervalsFromIn N (N.add low p) rest = intervalsFrom (N.add low p) rest := by
      apply ih
      intro i e t he ht
      exact h (i + 1) e t (by simpa [intervalsFromIn] using he) (by simpa using ht)
    rw [h0] at hrest
    simp only [intervalsFromIn, intervalsFrom, h0, hrest]

theorem mem_zip_of_index {α β : Type} (l1 : List α) (l2 : List β) (i : Nat) (a : α) (b : β)
    (h1 : l1[i]? = some a) (h2 : l2[i]? = some b) : (a, b) ∈ l1.zip l2 := by
  have : (l1.zip l2)[i]? = some (a, b) := by
    rw [List.getElem?_zip_eq_some]
    exact ⟨h1, h2⟩
  exact List.getElem?_mem this

theorem calculateProbabilitiesIn_keys_iff (N : Numerics) (input : List Char) (c : Char) :
    c ∈ (calculateProbabilitiesIn N input).map Prod.fst ↔ c ∈ input := by
  rw [calculateProbabilitiesIn_keys]
  exact calculateProbabilities_keys input c

theorem calculateProbabilitiesIn_ne_nil (N : Numerics) (input : List Char) (hne : input ≠ []) :
    calculateProbabilitiesIn N input ≠ [] := by
  obtain ⟨c, hc⟩ := List.exists_mem_of_ne_nil input hne
  have := (calculateProbabilitiesIn_keys_iff N input c).2 hc
  intro h
  rw [h] at this
  simp at this

/-- When every quotient is rounded down, the values of the table sum to at most `1`. -/
theorem calculateProbabilitiesIn_sum_le (N : Numerics) (input : List Char) (hne : input ≠ [])
    (h : ∀ c ∈ input, N.div (input.count c : ℚ) (input.length : ℚ)
      ≤ (input.count c : ℚ) / (input.length : ℚ)) :
    ((calculateProbabilitiesIn N input).map Prod.snd).sum ≤ 1 := by
  rw [← calculateProbabilities_sum input hne]
  unfold calculateProbabilitiesIn calculateProbabilities
  rw [List.map_map, List.map_map]
  apply List.sum_le_sum
  intro pair hp
  obtain ⟨k, n⟩ := pair
  obtain ⟨hc, rfl⟩ := countSymbols_mem input k n hp
  exact h k hc

theorem ownPartitionIn_eq (N : Numerics) (input : List Char) :
    buildIntervalsIn N (calculateProbabilitiesIn N input)
      = intervalsFromIn N 0 (calculateProbabilitiesIn N input) :=
  buildIntervalsIn_eq N _ (calculateProbabilitiesIn_sorted N input)

theorem ownPartitionIn_keys (N : Numerics) (input : List Char) :
    (buildIntervalsIn N (calculateProbabilitiesIn N input)).map Prod.fst
      = (calculateProbabilitiesIn N input).map Prod.fst := by
  rw [ownPartitionIn_eq, intervalsFromIn_keys]

theorem ownPartitionIn_sorted (N : Numerics) (input : List Char) :
    KeysSorted (buildIntervalsIn N (calculateProbabilitiesIn N input)) := by
  unfold KeysSorted
  rw [ownPartitionIn_keys]
  exact calculateProbabilitiesIn_sorted N input

/-- When every step of `buildIntervals` moves `low` strictly upwards, the entries are
contiguous from the starting `low`. -/
theorem intervalsFromIn_contiguous (N : Numerics) (T : List (Char × ℚ)) :
    ∀ low : ℚ,
      (∀ et ∈ (intervalsFromIn N low T).zip T, et.1.2.low < N.add et.1.2.low et.2.2) →
      ∃ top, Contiguous low (intervalsFromIn N low T) top := by
  induction T with
  | nil => intro low _; exact ⟨low, rfl⟩
  | cons x rest ih =>
    intro low h
    obtain ⟨k, p⟩ := x
    simp only [intervalsFromIn, List.zip_cons_cons, List.forall_mem_cons] at h
    obtain ⟨top, ht⟩ := ih (N.add low p) h.2
    exact ⟨top, rfl, h.1, ht⟩

/-- When every sum of `buildIntervals` is rounded down and the probabilities are not
negative, no `high` exceeds the starting `low` plus the sum of the probabilities. -/
theorem intervalsFromIn_high_le (N : Numerics) (T : List (Char × ℚ)) :
    ∀ low : ℚ, (∀ t ∈ T, 0 ≤ t.2) →
      (∀ et ∈ (intervalsFromIn N low T).zip T,
        N.add et.1.2.low et.2.2 ≤ et.1.2.low + et.2.2) →
      ∀ e ∈ intervalsFromIn N low T, e.2.high ≤ low + (T.map Prod.snd).sum := by
  induction T with
  | nil => intro low _ _ e he; simp [intervalsFromIn] at he
  | cons x rest ih =>
    intro low hpos h e he
    obtain ⟨k, p⟩ := x
    simp only [intervalsFromIn, List.zip_cons_cons, List.forall_mem_cons] at h
    have hrest : 0 ≤ (rest.map Prod.snd).sum := by
      apply List.sum_nonneg
      intro v hv
      obtain ⟨t, ht, rfl⟩ := List.mem_map.1 hv
      exact hpos t (List.mem_cons_of_mem _ ht)
    simp only [intervalsFromIn, List.mem_cons] at he
    simp only [List.map_cons, List.sum_cons]
    rcases he with rfl | he
    · have := h.1
      simp only at this ⊢
      linarith
    · have h1 := ih (N.add low p) (fun t ht => hpos t (List.mem_cons_of_mem _ ht)) h.2 e he
      have := h.1
      simp only at this
      linarith

/-- When every sum `low + probability` taken by `buildIntervals` is exact, the entries are
those of exact arithmetic. -/
theorem intervalsFromIn_eq_of_exact_zip (N : Numerics) (T : List (Char × ℚ)) :
    ∀ low : ℚ,
      (∀ et ∈ (intervalsFromIn N low T).zip T,
        N.add et.1.2.low et.2.2 = et.1.2.low + et.2.2) →
      intervalsFromIn N low T = intervalsFrom low T := by
  intro low h
  apply intervalsFromIn_eq_of_exact
  intro i e t he ht
  exact h (e, t) (mem_zip_of_index _ _ i e t he ht)

/-- When the quotients of the table and the sums of the partition are exact, the partition
is the one of exact arithmetic. -/
theorem ownPartitionIn_eq_of_exact (N : Numerics) (input : List Char)
    (hdiv : ∀ c ∈ input, N.div (input.count c : ℚ) (input.length : ℚ)
      = (input.count c : ℚ) / (input.length : ℚ))
    (hadd : ∀ et ∈ (buildIntervalsIn N (calculateProbabilitiesIn N input)).zip
        (calculateProbabilitiesIn N input),
      N.add et.1.2.low et.2.2 = et.1.2.low + et.2.2) :
    buildIntervalsIn N (calculateProbabilitiesIn N input)
      = buildIntervals (calculateProbabilities input) := by
  rw [ownPartitionIn_eq] at hadd ⊢
  rw [intervalsFromIn_eq_of_exact_zip N _ 0 hadd,
    calculateProbabilitiesIn_eq_of_exact N input hdiv, ← ownPartition_eq]

/-- For a positive `range` the quantizer of exact arithmetic is `quantize`. -/
theorem quantizeIn_exact (low high : ℚ) (h : low < high) :
    quantizeIn exactNumerics low high
      = some ((quantize low high).1, ((quantize low high).2 : Int)) := by
  unfold quantizeIn quantize exactNumerics
  have hpos : 0 < high - low := by linarith
  simp only [hpos, if_true]
  norm_cast

/-! ## The decimal arithmetic rounds down

The hypotheses "rounded down" of the claims on the table and the partition hold in
`cppDecFloat100` for every input. -/

theorem limbBase_pos : (0 : ℚ) < limbBase := by
  unfold limbBase; positivity

theorem one_le_limbBase : (1 : ℚ) ≤ limbBase := by
  unfold limbBase; norm_num

theorem limbExpUp_le (x : ℚ) : ∀ (fuel e : Nat), limbBase ^ e ≤ x →
    limbBase ^ (limbExpUp x fuel e) ≤ x := by
  intro fuel
  induction fuel with
  | zero => intro e h; exact h
  | succ fuel ih =>
    intro e h
    unfold limbExpUp
    by_cases hx : x < limbBase ^ (e + 1)
    · rw [if_pos hx]; exact h
    · rw [if_neg hx]; exact ih (e + 1) (not_lt.1 hx)

theorem limbExpDown_spec (x : ℚ) : ∀ (fuel j : Nat),
    1 ≤ x * limbBase ^ (limbExpDown x fuel j) ∨ limbExpDown x fuel j = j + fuel := by
  intro fuel
  induction fuel with
  | zero => intro j; right; rfl
  | succ fuel ih =>
    intro j
    unfold limbExpDown
    by_cases hx : 1 ≤ x * limbBase ^ j
    · rw [if_pos hx]; left; exact hx
    · rw [if_neg hx]
      rcases ih (j + 1) with h | h
      · left; exact h
      · right; rw [h]; omega

theorem one_le_mul_limbBase_pow (x : ℚ) (hx : 0 < x) (n : Nat) (hn : x.den ≤ n) :
    1 ≤ x * limbBase ^ n := by
  have hden : (0 : ℚ) < (x.den : ℚ) := by exact_mod_cast x.den_pos
  have hnum : (1 : ℚ) ≤ (x.num : ℚ) := by
    have : (0 : ℤ) < x.num := Rat.num_pos.2 hx
    exact_mod_cast this
  have hpow : (x.den : ℚ) ≤ limbBase ^ n := by
    have h1 : (x.den : ℚ) ≤ (n : ℚ) := by exact_mod_cast hn
    have h2 : (n : ℚ) ≤ (2 : ℚ) ^ n := by exact_mod_cast (Nat.lt_two_pow n).le
    have h3 : (2 : ℚ) ^ n ≤ limbBase ^ n :=
      pow_le_pow_left₀ (by norm_num) (by unfold limbBase; norm_num) n
    linarith
  have hxd : x = (x.num : ℚ) / (x.den : ℚ) := (Rat.num_div_den x).symm
  have h1 : (1 : ℚ) / (x.den : ℚ) ≤ x := by
    rw [hxd]
    simp only [Rat.num_div_den]
    rw [div_le_iff₀ hden]
    calc (1 : ℚ) ≤ (x.num : ℚ) := hnum
      _ = (x.num : ℚ) / (x.den : ℚ) * (x.den : ℚ) := by field_simp
      _ = x * (x.den : ℚ) := by rw [Rat.num_div_den]
  calc (1 : ℚ) = 1 / (x.den : ℚ) * (x.den : ℚ) := by field_simp
    _ ≤ x * limbBase ^ n := mul_le_mul h1 hpow hden.le hx.le

theorem lastLimbUnit_pos (x : ℚ) : 0 < lastLimbUnit x := by
  unfold lastLimbUnit
  have := limbBase_pos
  split <;> positivity

/-- The last limb of `x > 0` weighs at most `x`: the first limb is not zero. -/
theorem lastLimbUnit_le (x : ℚ) (hx : 0 < x) : lastLimbUnit x ≤ x := by
  have hB := limbBase_pos
  have hB1 := one_le_limbBase
  unfold lastLimbUnit
  by_cases h1 : 1 ≤ x
  · rw [if_pos h1]
    have h := limbExpUp_le x x.num.toNat 0 (by simpa using h1)
    have h15 : (1 : ℚ) ≤ limbBase ^ 15 := one_le_pow₀ hB1
    calc limbBase ^ limbExpUp x x.num.toNat 0 / limbBase ^ 15
        ≤ limbBase ^ limbExpUp x x.num.toNat 0 / 1 :=
          div_le_div_of_nonneg_left (by positivity) one_pos h15
      _ = limbBase ^ limbExpUp x x.num.toNat 0 := div_one _
      _ ≤ x := h
  · rw [if_neg h1]
    have hpow : (0 : ℚ) < limbBase ^ (limbExpDown x x.den 1 + 15) := by positivity
    rw [div_le_iff₀ hpow]
    rcases limbExpDown_spec x x.den 1 with h | h
    · have h15 : (1 : ℚ) ≤ limbBase ^ 15 := one_le_pow₀ hB1
      rw [pow_add, ← mul_assoc]
      calc (1 : ℚ) = 1 * 1 := (one_mul 1).symm
        _ ≤ x * limbBase ^ limbExpDown x x.den 1 * limbBase ^ 15 :=
          mul_le_mul h h15 zero_le_one (by positivity)
    · exact one_le_mul_limbBase_pow x hx _ (by omega)

theorem truncTo_le (u x : ℚ) (hu : 0 < u) : truncTo u x ≤ x := by
  unfold truncTo
  have h : ((x / u).floor : ℚ) ≤ x / u := Int.floor_le (x / u)
  calc ((x / u).floor : ℚ) * u ≤ x / u * u := mul_le_mul_of_nonneg_right h hu.le
    _ = x := by field_simp

theorem truncTo_pos (u x : ℚ) (hu : 0 < u) (hx : u ≤ x) : 0 < truncTo u x := by
  unfold truncTo
  have h1 : (1 : ℚ) ≤ x / u := by rw [le_div_iff₀ hu]; linarith
  have h : (1 : ℤ) ≤ (x / u).floor := by
    show (1 : ℤ) ≤ ⌊x / u⌋
    exact Int.le_floor.2 (by exact_mod_cast h1)
  have h2 : (1 : ℚ) ≤ ((x / u).floor : ℚ) := by exact_mod_cast h
  have : (0 : ℚ) < ((x / u).floor : ℚ) := by linarith
  exact mul_pos this hu

/-- Cutting a positive value off to 16 limbs rounds down and does not reach zero. -/
theorem truncLimbs_pos_le (x : ℚ) (hx : 0 < x) : 0 < truncLimbs x ∧ truncLimbs x ≤ x := by
  unfold truncLimbs
  rw [if_neg hx.ne', if_pos hx]
  exact ⟨truncTo_pos _ x (lastLimbUnit_pos x) (lastLimbUnit_le x hx),
    truncTo_le _ x (lastLimbUnit_pos x)⟩

theorem truncLimbs_nonneg_le (x : ℚ) (hx : 0 ≤ x) : 0 ≤ truncLimbs x ∧ truncLimbs x ≤ x := by
  rcases hx.lt_or_eq with h | h
  · exact ⟨(truncLimbs_pos_le x h).1.le, (truncLimbs_pos_le x h).2⟩
  · subst h
    simp [truncLimbs]

/-- In the decimal arithmetic, for every non-empty input, every value of the table lies in
`(0, 1]` and is at most `count / length`, and the values sum to at most `1`. -/
theorem calculateProbabilitiesIn_cppDecFloat100 (input : List Char) (hne : input ≠ []) :
    (∀ (c : Char) (v : ℚ), (c, v) ∈ calculateProbabilitiesIn cppDecFloat100 input →
      0 < v ∧ v ≤ (input.count c : ℚ) / (input.length : ℚ) ∧ v ≤ 1) ∧
    ((calculateProbabilitiesIn cppDecFloat100 input).map Prod.snd).sum ≤ 1 := by
  have hlen : (0 : ℚ) < (input.length : ℚ) := by exact_mod_cast List.length_pos.2 hne
  have hdown : ∀ c ∈ input,
      0 < cppDecFloat100.div (input.count c : ℚ) (input.length : ℚ) ∧
      cppDecFloat100.div (input.count c : ℚ) (input.length : ℚ)
        ≤ (input.count c : ℚ) / (input.length : ℚ) := by
    intro c hc
    have hcount : (0 : ℚ) < (input.count c : ℚ) := by
      exact_mod_cast List.count_pos_iff.2 hc
    exact truncLimbs_pos_le _ (div_pos hcount hlen)
  refine ⟨?_, calculateProbabilitiesIn_sum_le _ input hne (fun c hc => (hdown c hc).2)⟩
  intro c v h
  obtain ⟨hc, rfl⟩ := calculateProbabilitiesIn_mem _ input c v h
  have hle1 : (input.count c : ℚ) / (input.length : ℚ) ≤ 1 := by
    have hcount : (input.count c : ℚ) ≤ (input.length : ℚ) := by
      exact_mod_cast List.count_le_length c input
    exact (div_le_one hlen).2 hcount
  exact ⟨(hdown c hc).1, (hdown c hc).2, le_trans (hdown c hc).2 hle1⟩

theorem intervalsFromIn_cppDecFloat100_low (T : List (Char × ℚ)) :
    ∀ low : ℚ, 0 ≤ low → (∀ t ∈ T, 0 ≤ t.2) →
      ∀ e ∈ intervalsFromIn cppDecFloat100 low T, 0 ≤ e.2.low := by
  induction T with
  | nil => intro low _ _ e he; simp [intervalsFromIn] at he
  | cons x rest ih =>
    intro low hlow hpos e he
    obtain ⟨k, p⟩ := x
    simp only [intervalsFromIn, List.mem_cons] at he
    rcases he with rfl | he
    · exact hlow
    · have hp : 0 ≤ p := hpos (k, p) (List.mem_cons_self _ _)
      exact ih _ (truncLimbs_nonneg_le (low + p) (by linarith)).1
        (fun t ht => hpos t (List.mem_cons_of_mem _ ht)) e he

/-- In the decimal arithmetic, for every non-empty input, every entry of the partition has
`0 ≤ low` and `high ≤ 1`. -/
theorem buildIntervalsIn_cppDecFloat100 (input : List Char) (hne : input ≠ []) :
    ∀ e ∈ buildIntervalsIn cppDecFloat100 (calculateProbabilitiesIn cppDecFloat100 input),
      0 ≤ e.2.low ∧ e.2.high ≤ 1 := by
  have hT := calculateProbabilitiesIn_cppDecFloat100 input hne
  have hpos : ∀ t ∈ calculateProbabilitiesIn cppDecFloat100 input, 0 ≤ t.2 :=
    fun t ht => (hT.1 t.1 t.2 ht).1.le
  have hlow := intervalsFromIn_cppDecFloat100_low _ 0 (le_refl 0) hpos
  intro e he
  rw [ownPartitionIn_eq] at he
  refine ⟨hlow e he, ?_⟩
  have hadd : ∀ et ∈ (intervalsFromIn cppDecFloat100 0
      (calculateProbabilitiesIn cppDecFloat100 input)).zip
        (calculateProbabilitiesIn cppDecFloat100 input),
      cppDecFloat100.add et.1.2.low et.2.2 ≤ et.1.2.low + et.2.2 := by
    intro et het
    have h1 := hlow et.1 (List.of_mem_zip het).1
    have h2 := hpos et.2 (List.of_mem_zip het).2
    exact (truncLimbs_nonneg_le (et.1.2.low + et.2.2) (by linarith)).2
  have h1 := intervalsFromIn_high_le cppDecFloat100 _ 0 hpos hadd e he
  linarith [hT.2]

/-! ## Claims on the table and the partition, for every arithmetic -/

/-- C9 (as amended): for every arithmetic `N` of the library and every non-empty input, the
keys of `calculateProbabilities input` are exactly the characters of the input, in strictly
ascending order, and every value is the quotient, as `N` computes it, of the number of
occurrences by the length. When these quotients are rounded down without reaching zero,
every value lies in `(0, 1]`, is at most `count / length`, and the values sum to at most
`1`; when they are exact, every value is `count / length` and the values sum to `1`. -/
theorem probability_table_in (N : Numerics) (input : List Char) (hne : input ≠ []) :
    (∀ c : Char, c ∈ (calculateProbabilitiesIn N input).map Prod.fst ↔ c ∈ input) ∧
    ((calculateProbabilitiesIn N input).map Prod.fst).Pairwise (· < ·) ∧
    (∀ (c : Char) (v : ℚ), (c, v) ∈ calculateProbabilitiesIn N input →
      v = N.div (input.count c : ℚ) (input.length : ℚ)) ∧
    ((∀ c ∈ input, 0 < N.div (input.count c : ℚ) (input.length : ℚ) ∧
        N.div (input.count c : ℚ) (input.length : ℚ)
          ≤ (input.count c : ℚ) / (input.length : ℚ)) →
      (∀ (c : Char) (v : ℚ), (c, v) ∈ calculateProbabilitiesIn N input →
        0 < v ∧ v ≤ (input.count c : ℚ) / (input.length : ℚ) ∧ v ≤ 1) ∧
      ((calculateProbabilitiesIn N input).map Prod.snd).sum ≤ 1) ∧
    ((∀ c ∈ input, N.div (input.count c : ℚ) (input.length : ℚ)
        = (input.count c : ℚ) / (input.length : ℚ)) →
      (∀ (c : Char) (v : ℚ), (c, v) ∈ calculateProbabilitiesIn N input →
        v = (input.count c : ℚ) / (input.length : ℚ) ∧ 0 < v ∧ v ≤ 1) ∧
      ((calculateProbabilitiesIn N input).map Prod.snd).sum = 1) := by
  have hle1 : ∀ c : Char, (input.count c : ℚ) / (input.length : ℚ) ≤ 1 := by
    intro c
    have hlen : (0 : ℚ) < (input.length : ℚ) := by exact_mod_cast List.length_pos.2 hne
    have hcount : (input.count c : ℚ) ≤ (input.length : ℚ) := by
      exact_mod_cast List.count_le_length c input
    exact (div_le_one hlen).2 hcount
  refine ⟨calculateProbabilitiesIn_keys_iff N input, calculateProbabilitiesIn_sorted N input,
    fun c v h => (calculateProbabilitiesIn_mem N input c v h).2, ?_, ?_⟩
  · intro hdown
    refine ⟨?_, calculateProbabilitiesIn_sum_le N input hne (fun c hc => (hdown c hc).2)⟩
    intro c v h
    obtain ⟨hc, rfl⟩ := calculateProbabilitiesIn_mem N input c v h
    exact ⟨(hdown c hc).1, (hdown c hc).2, le_trans (hdown c hc).2 (hle1 c)⟩
  · intro hexact
    rw [calculateProbabilitiesIn_eq_of_exact N input hexact]
    exact ⟨fun c v h => ⟨(calculateProbabilities_mem input c v h).2,
      calculateProbabilities_pos input c v h⟩, calculateProbabilities_sum input hne⟩

/-- C9 in the decimal arithmetic of the library: for `"AAB"` the quotients are rounded
down and the values sum to at most `1`; for `"AAAB"` the quotients are exact, the table is
`A ↦ 3/4`, `B ↦ 1/4` and its values sum to `1`. -/
theorem probability_table_in_witness :
    ['A', 'A', 'B'] ≠ [] ∧
    ((calculateProbabilitiesIn cppDecFloat100 ['A', 'A', 'B']).map Prod.snd).sum ≤ 1 ∧
    calculateProbabilitiesIn cppDecFloat100 ['A', 'A', 'A', 'B'] = [('A', 3 / 4), ('B', 1 / 4)] ∧
    ((calculateProbabilitiesIn cppDecFloat100 ['A', 'A', 'A', 'B']).map Prod.snd).sum = 1 :=
  ⟨by decide,
    ((probability_table_in cppDecFloat100 ['A', 'A', 'B'] (by decide)).2.2.2.1 (by decide!)).2,
    by decide!,
    ((probability_table_in cppDecFloat100 ['A', 'A', 'A', 'B'] (by decide)).2.2.2.2
      (by decide!)).2⟩

/-- C9 as stated fails in the decimal arithmetic of the library: for `"AAB"` the value
stored for `B` is not `1/3` (it is `0.33…3`, cut off after the last limb) and the values
of the table do not sum to `1`. -/
theorem probability_table_counterexample :
    ['A', 'A', 'B'] ≠ [] ∧
    (∃ v : ℚ, ('B', v) ∈ calculateProbabilitiesIn cppDecFloat100 ['A', 'A', 'B'] ∧
      v ≠ (['A', 'A', 'B'].count 'B' : ℚ) / (['A', 'A', 'B'].length : ℚ)) ∧
    ((calculateProbabilitiesIn cppDecFloat100 ['A', 'A', 'B']).map Prod.snd).sum ≠ 1 := by
  refine ⟨by decide, ⟨(10 ^ 128 - 1) / (3 * 10 ^ 128), ?_, ?_⟩, ?_⟩
  · decide!
  · decide!
  · decide!

/-- C4 (as amended): for every arithmetic `N` of the library and every non-empty input, the
partition `buildIntervals (calculateProbabilities input)` has the keys of the table in
ascending order, starts at `low = 0`, gives every entry `high = low + probability` as `N`
computes the sum, and starts every entry at the previous entry's `high`. When every such
sum lies above its `low`, every entry has `low < high`, the intervals `[low, high)` are
pairwise disjoint and their union is `[0, top)` with `top` the last `high`; when the
quotients and the sums are rounded down, no `high` exceeds `1`; when they are exact, the
last `high` is `1` and the union is `[0, 1)`. -/
theorem partition_coverage_in (N : Numerics) (input : List Char) (hne : input ≠ []) :
    (buildIntervalsIn N (calculateProbabilitiesIn N input)).map Prod.fst
      = (calculateProbabilitiesIn N input).map Prod.fst ∧
    ((buildIntervalsIn N (calculateProbabilitiesIn N input)).map Prod.fst).Pairwise (· < ·) ∧
    (∃ e, (buildIntervalsIn N (calculateProbabilitiesIn N input)).head? = some e ∧
      e.2.low = 0) ∧
    (∀ (i : Nat) (e : Char × Interval) (t : Char × ℚ),
      (buildIntervalsIn N (calculateProbabilitiesIn N input))[i]? = some e →
      (calculateProbabilitiesIn N input)[i]? = some t →
      e.1 = t.1 ∧ e.2.high = N.add e.2.low t.2) ∧
    (∀ (i : Nat) (e e1 : Char × Interval),
      (buildIntervalsIn N (calculateProbabilitiesIn N input))[i]? = some e →
      (buildIntervalsIn N (calculateProbabilitiesIn N input))[i + 1]? = some e1 →
      e1.2.low = e.2.high) ∧
    ((∀ et ∈ (buildIntervalsIn N (calculateProbabilitiesIn N input)).zip
          (calculateProbabilitiesIn N input),
        et.1.2.low < N.add et.1.2.low et.2.2) →
      (∀ e ∈ buildIntervalsIn N (calculateProbabilitiesIn N input), e.2.low < e.2.high) ∧
      (∀ (i j : Nat) (ei ej : Char × Interval), i ≠ j →
        (buildIntervalsIn N (calculateProbabilitiesIn N input))[i]? = some ei →
        (buildIntervalsIn N (calculateProbabilitiesIn N input))[j]? = some ej →
        ∀ x : ℚ, ¬ ((ei.2.low ≤ x ∧ x < ei.2.high) ∧ (ej.2.low ≤ x ∧ x < ej.2.high))) ∧
      (∃ e, (buildIntervalsIn N (calculateProbabilitiesIn N input)).getLast? = some e ∧
        ∀ x : ℚ, (0 ≤ x ∧ x < e.2.high) ↔
          ∃ e1 ∈ buildIntervalsIn N (calculateProbabilitiesIn N input),
            e1.2.low ≤ x ∧ x < e1.2.high)) ∧
    ((∀ c ∈ input, 0 ≤ N.div (input.count c : ℚ) (input.length : ℚ) ∧
        N.div (input.count c : ℚ) (input.length : ℚ)
          ≤ (input.count c : ℚ) / (input.length : ℚ)) →
      (∀ et ∈ (buildIntervalsIn N (calculateProbabilitiesIn N input)).zip
          (calculateProbabilitiesIn N input),
        N.add et.1.2.low et.2.2 ≤ et.1.2.low + et.2.2) →
      ∀ e ∈ buildIntervalsIn N (calculateProbabilitiesIn N input), e.2.high ≤ 1) ∧
    ((∀ c ∈ input, N.div (input.count c : ℚ) (input.length : ℚ)
        = (input.count c : ℚ) / (input.length : ℚ)) →
      (∀ et ∈ (buildIntervalsIn N (calculateProbabilitiesIn N input)).zip
          (calculateProbabilitiesIn N input),
        N.add et.1.2.low et.2.2 = et.1.2.low + et.2.2) →
      (∀ e ∈ buildIntervalsIn N (calculateProbabilitiesIn N input), e.2.low < e.2.high) ∧
      (∃ e, (buildIntervalsIn N (calculateProbabilitiesIn N input)).getLast? = some e ∧
        e.2.high = 1) ∧
      (∀ x : ℚ, (0 ≤ x ∧ x < 1) ↔
        ∃ e ∈ buildIntervalsIn N (calculateProbabilitiesIn N input),
          e.2.low ≤ x ∧ x < e.2.high)) := by
  have hT := calculateProbabilitiesIn_ne_nil N input hne
  have hnil : buildIntervalsIn N (calculateProbabilitiesIn N input) ≠ [] := by
    intro h
    have hk := ownPartitionIn_keys N input
    rw [h] at hk
    exact hT (List.map_eq_nil_iff.1 hk.symm)
  obtain ⟨last, hlast⟩ := Option.ne_none_iff_exists'.1
    (fun h => hnil (List.getLast?_eq_none_iff.1 h))
  refine ⟨ownPartitionIn_keys N input, ownPartitionIn_sorted N input, ?_, ?_, ?_, ?_, ?_, ?_⟩
  · cases hP : buildIntervalsIn N (calculateProbabilitiesIn N input) with
    | nil => exact absurd hP hnil
    | cons e rest =>
      refine ⟨e, rfl, ?_⟩
      rw [ownPartitionIn_eq] at hP
      exact intervalsFromIn_head N _ 0 e (by rw [hP]; rfl)
  · intro i e t he ht
    rw [ownPartitionIn_eq] at he
    exact intervalsFromIn_index N _ 0 i e t he ht
  · intro i e e1 he he1
    rw [ownPartitionIn_eq] at he he1
    exact intervalsFromIn_next N _ 0 i e e1 he he1
  · intro hup
    rw [ownPartitionIn_eq] at hup
    obtain ⟨top, hc⟩ := intervalsFromIn_contiguous N _ 0 hup
    rw [← ownPartitionIn_eq] at hc
    refine ⟨fun e he => (hc.mem_bounds e he).2.1, ?_, last, hlast, ?_⟩
    · intro i j ei ej hij hi hj x hx
      obtain ⟨⟨h1, h2⟩, h3, h4⟩ := hx
      rcases Nat.lt_or_gt_of_ne hij with h | h
      · have := hc.ordered i j ei ej h hi hj; linarith
      · have := hc.ordered j i ej ei h hj hi; linarith
    · rw [hc.last_high last hlast]
      exact hc.cover
  · intro hdown hadd e he
    rw [ownPartitionIn_eq] at hadd he
    have hpos : ∀ t ∈ calculateProbabilitiesIn N input, 0 ≤ t.2 := by
      intro t ht
      obtain ⟨hc, hv⟩ := calculateProbabilitiesIn_mem N input t.1 t.2 ht
      rw [hv]
      exact (hdown t.1 hc).1
    have h1 := intervalsFromIn_high_le N _ 0 hpos hadd e he
    have h2 := calculateProbabilitiesIn_sum_le N input hne (fun c hc => (hdown c hc).2)
    linarith
  · intro hdiv hadd
    rw [ownPartitionIn_eq_of_exact N input hdiv hadd]
    have hc := ownPartition_contiguous input hne
    rw [ownPartitionIn_eq_of_exact N input hdiv hadd] at hlast
    exact ⟨fun e he => (hc.mem_bounds e he).2.1, ⟨last, hlast, hc.last_high last hlast⟩,
      hc.cover⟩

/-- C4 in the decimal arithmetic of the library: for `"ABC"` the sums lie above their
`low` and are rounded down, so the intervals are disjoint and no `high` exceeds `1`; for
`"AAAB"` the arithmetic is exact, the partition is `A = [0, 3/4)`, `B = [3/4, 1)` and the
union of its intervals is `[0, 1)`. -/
theorem partition_coverage_in_witness :
    ['A', 'B', 'C'] ≠ [] ∧
    (∀ e ∈ buildIntervalsIn cppDecFloat100 (calculateProbabilitiesIn cppDecFloat100
      ['A', 'B', 'C']), e.2.low < e.2.high ∧ e.2.high ≤ 1) ∧
    buildIntervalsIn cppDecFloat100 (calculateProbabilitiesIn cppDecFloat100
      ['A', 'A', 'A', 'B']) = [('A', ⟨0, 3 / 4⟩), ('B', ⟨3 / 4, 1⟩)] ∧
    (∀ x : ℚ, (0 ≤ x ∧ x < 1) ↔
      ∃ e ∈ buildIntervalsIn cppDecFloat100 (calculateProbabilitiesIn cppDecFloat100
        ['A', 'A', 'A', 'B']), e.2.low ≤ x ∧ x < e.2.high) :=
  ⟨by decide,
    fun e he =>
      ⟨((partition_coverage_in cppDecFloat100 ['A', 'B', 'C'] (by decide)).2.2.2.2.2.1
          (by decide!)).1 e he,
        (partition_coverage_in cppDecFloat100 ['A', 'B', 'C'] (by decide)).2.2.2.2.2.2.1
          (by decide!) (by decide!) e he⟩,
    by decide!,
    ((partition_coverage_in cppDecFloat100 ['A', 'A', 'A', 'B'] (by decide)).2.2.2.2.2.2.2
      (by decide!) (by decide!)).2.2⟩

/-- C4 as stated fails in the decimal arithmetic of the library: for `"ABC"` the three
stored probabilities are `0.33…3`, the last `high` is below `1`, and this last `high` is a
point of `[0, 1)` that lies in no interval of the partition. -/
theorem partition_coverage_counterexample :
    ['A', 'B', 'C'] ≠ [] ∧
    ∃ e, (buildIntervalsIn cppDecFloat100 (calculateProbabilitiesIn cppDecFloat100
        ['A', 'B', 'C'])).getLast? = some e ∧
      e.2.high ≠ 1 ∧ (0 ≤ e.2.high ∧ e.2.high < 1) ∧
      ∀ e1 ∈ buildIntervalsIn cppDecFloat100 (calculateProbabilitiesIn cppDecFloat100
        ['A', 'B', 'C']), ¬ (e1.2.low ≤ e.2.high ∧ e.2.high < e1.2.high) := by
  refine ⟨by decide, ('C', ⟨2 * (10 ^ 128 - 1) / (3 * 10 ^ 128), (10 ^ 128 - 1) / 10 ^ 128⟩),
    ?_, ?_, ?_, ?_⟩
  · decide!
  · decide!
  · decide!
  · decide!

/-! ## Claims on the encoder and the quantizer, for every arithmetic -/

end DiscreteMath
